import Mathlib

/-!
Verification of TmLibrary (TissueMAPS library) workflow, batch-persistence
and data-fusion routines, shallowly embedded from the Python sources
(`tmlib/workflow/api.py`, `tmlib/tmaps/canonical.py`,
`tmlib/jterator/data_fusion.py`).

Paths are modelled as lists of POSIX components of a normalized path
(no empty, `.` or `..` components).  An absolute path rooted under the
experiment directory is the experiment root's component list followed by
a non-empty suffix.
-/

namespace TmLib

/-- A filesystem path, as its list of components. -/
abbrev Path := List String

/-- `os.path.join root p` for a relative `p` (the only way the repository
calls it): the components concatenate. -/
def osJoin (root p : Path) : Path := root ++ p

/-- `os.path.relpath p root`.  The repository only applies it to paths
rooted under `root`, where Python returns the suffix; outside that case the
model returns `p` unchanged (Python would build a `..`-path, which no claim
exercises). -/
def osRelpath (p root : Path) : Path :=
  if root.isPrefixOf p then p.drop root.length else p

/-- `p` is an absolute path lying strictly under `root`. -/
def RootedUnder (root p : Path) : Prop :=
  root.isPrefixOf p ∧ root.length < p.length

instance (root p : Path) : Decidable (RootedUnder root p) := by
  unfold RootedUnder; infer_instance

/-- Value of one key of a nested `inputs` dictionary: either a single path
or a list of paths (`_make_paths_absolute`, `api.py` lines 456-465). -/
inductive DictEntry where
  | single (p : Path)
  | many (ps : List Path)
  deriving DecidableEq

/-- Value of one `inputs` key: a mapping, a flat path list, or a one-level
nested list of path lists (`api.py` lines 454-479). -/
inductive InputValue where
  | dictV (m : List (String × DictEntry))
  | listV (ps : List Path)
  | nestedV (pss : List (List Path))
  deriving DecidableEq

/-- Value of one `outputs` key: a flat path list, a nested list, or a
single path string (`api.py` lines 484-502). -/
inductive OutputValue where
  | strV (p : Path)
  | listV (ps : List Path)
  | nestedV (pss : List (List Path))
  deriving DecidableEq

/-- A job description (batch): `id`, `inputs` and `outputs`, the shapes
being exactly the ones `_make_paths_absolute`/`_make_paths_relative`
accept (any other shape raises `TypeError` in the source, which the typed
model excludes by construction). -/
structure Batch where
  id : Nat
  inputs : List (String × InputValue)
  outputs : List (String × OutputValue)
  deriving DecidableEq

def absDictEntry (root : Path) : DictEntry → DictEntry
  | .single p => .single (osJoin root p)
  | .many ps => .many (ps.map (osJoin root))

def absInputValue (root : Path) : InputValue → InputValue
  | .dictV m => .dictV (m.map (fun kv => (kv.1, absDictEntry root kv.2)))
  | .listV ps => .listV (ps.map (osJoin root))
  | .nestedV pss => .nestedV (pss.map (fun v => v.map (osJoin root)))

def absOutputValue (root : Path) : OutputValue → OutputValue
  | .strV p => .strV (osJoin root p)
  | .listV ps => .listV (ps.map (osJoin root))
  | .nestedV pss => .nestedV (pss.map (fun v => v.map (osJoin root)))

/-- `ClusterRoutines._make_paths_absolute` (`api.py` lines 453-507):
prefix the experiment root onto every path of the batch, recursing over
whichever of the allowed shapes each key uses. -/
def make_paths_absolute (root : Path) (b : Batch) : Batch :=
  { b with
    inputs := b.inputs.map (fun kv => (kv.1, absInputValue root kv.2)),
    outputs := b.outputs.map (fun kv => (kv.1, absOutputValue root kv.2)) }

def relDictEntry (root : Path) : DictEntry → DictEntry
  | .single p => .single (osRelpath p root)
  | .many ps => .many (ps.map (fun p => osRelpath p root))

def relInputValue (root : Path) : InputValue → InputValue
  | .dictV m => .dictV (m.map (fun kv => (kv.1, relDictEntry root kv.2)))
  | .listV ps => .listV (ps.map (fun p => osRelpath p root))
  | .nestedV pss => .nestedV (pss.map (fun v => v.map (fun p => osRelpath p root)))

def relOutputValue (root : Path) : OutputValue → OutputValue
  | .strV p => .strV (osRelpath p root)
  | .listV ps => .listV (ps.map (fun p => osRelpath p root))
  | .nestedV pss => .nestedV (pss.map (fun v => v.map (fun p => osRelpath p root)))

/-- `ClusterRoutines._make_paths_relative` (`api.py` lines 571-625):
strip the experiment root from every path of the batch. -/
def make_paths_relative (root : Path) (b : Batch) : Batch :=
  { b with
    inputs := b.inputs.map (fun kv => (kv.1, relInputValue root kv.2)),
    outputs := b.outputs.map (fun kv => (kv.1, relOutputValue root kv.2)) }

/-- All paths occurring in a `DictEntry`. -/
def pathsOfDictEntry : DictEntry → List Path
  | .single p => [p]
  | .many ps => ps

def pathsOfInputValue : InputValue → List Path
  | .dictV m => m.flatMap (fun kv => pathsOfDictEntry kv.2)
  | .listV ps => ps
  | .nestedV pss => pss.flatMap id

def pathsOfOutputValue : OutputValue → List Path
  | .strV p => [p]
  | .listV ps => ps
  | .nestedV pss => pss.flatMap id

/-- All paths occurring in a batch. -/
def pathsOfBatch (b : Batch) : List Path :=
  b.inputs.flatMap (fun kv => pathsOfInputValue kv.2)
    ++ b.outputs.flatMap (fun kv => pathsOfOutputValue kv.2)

/-- Every path of the batch lies strictly under `root`. -/
def BatchRootedUnder (root : Path) (b : Batch) : Prop :=
  ∀ p ∈ pathsOfBatch b, RootedUnder root p

instance (root : Path) (b : Batch) : Decidable (BatchRootedUnder root b) := by
  unfold BatchRootedUnder; infer_instance

/-- Zero-padded six-digit job number, as in `'%.6d' % job_id`. -/
def pad6 (n : Nat) : String :=
  let s := toString n
  String.mk (List.replicate (6 - s.length) '0') ++ s

/-- `ClusterRoutines.build_run_job_filename` (`api.py` lines 418-438),
reduced to the file name inside the job-descriptions directory. -/
def build_run_job_filename (step : String) (job_id : Nat) : String :=
  step ++ "_run_" ++ pad6 job_id ++ ".job.json"

/-- `ClusterRoutines.build_collect_job_filename` (`api.py` lines 440-451). -/
def build_collect_job_filename (step : String) : String :=
  step ++ "_collect.job.json"

/-- The `job_descriptions` mapping: a list of run batches and an optional
collect batch. -/
structure JobDescriptions where
  run : List Batch
  collect : Option Batch
  deriving DecidableEq

/-- The only check of `_check_io_description` (`api.py` lines 542-569) that
can fail in the typed model: every `outputs` value must be a list (a single
string raises `TypeError` there, although `_make_paths_relative` would
accept it).  The `isinstance(..., dict)` and `values()` checks hold by
construction of `Batch`. -/
def outputsAreLists (b : Batch) : Bool :=
  b.outputs.all (fun kv => match kv.2 with
    | .strV _ => false
    | .listV _ => true
    | .nestedV _ => true)

def check_io_description (jd : JobDescriptions) : Bool :=
  jd.run.all outputsAreLists &&
    (match jd.collect with
     | none => true
     | some c => outputsAreLists c)

/-- `ClusterRoutines.write_job_files` (`api.py` lines 627-655).  The Python
code mutates each batch dictionary in place via `_make_paths_relative`
(which returns the very object it received); the model makes that caller
visible state explicit: the result is the list of written
`(filename, content)` pairs together with the post-call value of the
`job_descriptions` argument. -/
def write_job_files (root : Path) (step : String) (jd : JobDescriptions) :
    Except Unit (List (String × Batch) × JobDescriptions) :=
  if check_io_description jd then
    let runRel := jd.run.map (fun b => make_paths_relative root b)
    let runFiles := runRel.map (fun b => (build_run_job_filename step b.id, b))
    match jd.collect with
    | none => .ok (runFiles, { run := runRel, collect := none })
    | some c =>
        let cRel := make_paths_relative root c
        .ok (runFiles ++ [(build_collect_job_filename step, cRel)],
             { run := runRel, collect := some cRel })
  else .error ()

/-- The slicing loop of `BasicClusterRoutines._create_batches`
(`api.py` line 91): `[li[i:i + n] for i in range(0, len(li), n)]` for a
step `n ≥ 1` (the caller clamps `n` to at least 1; at `m = 0` this model
behaves like `m = 1`, a case the clamp makes unreachable). -/
def chunkList {α : Type} (m : Nat) : List α → List (List α)
  | [] => []
  | x :: xs => (x :: xs.take (m - 1)) :: chunkList m (xs.drop (m - 1))
termination_by l => l.length
decreasing_by simp only [List.length_drop, List.length_cons]; omega

/-- `BasicClusterRoutines._create_batches` (`api.py` lines 87-91):
`n = max(1, n)` then slice `li` into pieces of length `n`. -/
def _create_batches {α : Type} (li : List α) (n : Int) : List (List α) :=
  chunkList (max 1 n).toNat li

/-- `tmlib.errors.JobDescriptionError('No job descriptor files found.')`. -/
inductive JobError where
  | noDescriptionsFound
  deriving DecidableEq

/-- `needle` occurs contiguously inside `hay`. -/
def containsSeq (needle hay : List Char) : Bool :=
  hay.tails.any (fun t => needle.isPrefixOf t)

/-- fnmatch of the glob pattern `*_run_*.job.json` (`api.py` line 298):
the name ends in `.job.json` and `_run_` occurs in what precedes that
suffix. -/
def matchesRunPattern (s : String) : Bool :=
  ".job.json".data.isSuffixOf s.data &&
    containsSeq "_run_".data (s.data.take (s.data.length - 9))

/-- fnmatch of the glob pattern `*_collect.job.json` (`api.py` line 303). -/
def matchesCollectPattern (s : String) : Bool :=
  "_collect.job.json".data.isSuffixOf s.data

/-- `ClusterRoutines.get_job_descriptions_from_files` (`api.py` lines
281-313).  The job-descriptions directory is a list of
`(filename, stored batch)` pairs in glob order; `read_job_file` (whose
`JsonReader` is not among the verified sources) is the stored batch with
`_make_paths_absolute` applied, as `api.py` lines 509-540 do. -/
def get_job_descriptions_from_files (root : Path)
    (dir : List (String × Batch)) : Except JobError JobDescriptions :=
  if (dir.filter (fun f => matchesRunPattern f.1)).isEmpty then
    .error .noDescriptionsFound
  else
    match dir.filter (fun f => matchesCollectPattern f.1) with
    | [] =>
        .ok { run := (dir.filter (fun f => matchesRunPattern f.1)).map
                (fun f => make_paths_absolute root f.2),
              collect := none }
    | c :: _ =>
        .ok { run := (dir.filter (fun f => matchesRunPattern f.1)).map
                (fun f => make_paths_absolute root f.2),
              collect := some (make_paths_absolute root c.2) }

/-- The canonical workflow stages (`canonical.py` lines 27-30). -/
def STAGES : List String :=
  ["image_conversion", "image_preprocessing", "pyramid_creation",
   "image_analysis"]

/-- `STEPS_PER_STAGE` (`canonical.py` lines 32-41); unknown stage names
are guarded by `check_stage_name` before every lookup. -/
def STEPS_PER_STAGE (stage : String) : List String :=
  if stage = "image_conversion" then ["metaextract", "metaconfig", "imextract"]
  else if stage = "image_preprocessing" then ["corilla", "align"]
  else if stage = "pyramid_creation" then ["illuminati"]
  else if stage = "image_analysis" then ["jterator"]
  else []

/-- `INTER_STAGE_DEPENDENCIES` (`canonical.py` lines 45-58). -/
def INTER_STAGE_DEPENDENCIES (stage : String) : List String :=
  if stage = "image_conversion" then []
  else if stage = "image_preprocessing" then ["image_conversion"]
  else if stage = "pyramid_creation" then
    ["image_conversion", "image_preprocessing"]
  else if stage = "image_analysis" then
    ["image_conversion", "image_preprocessing"]
  else []

/-- The distinct `WorkflowDescriptionError` messages `add_stage` can raise
(`canonical.py` lines 159-207); the source uses one exception class with
these message shapes. -/
inductive WfError where
  | duplicateStage (name : String)
  | unknownStage (name : String)
  | unknownStep (name : String)
  | orderViolation (name upstream : String)
  | missingRequiredSteps (name : String)
  deriving DecidableEq

/-- A canonical stage description, reduced to its name and step names. -/
structure StageDesc where
  name : String
  steps : List String
  deriving DecidableEq

/-- `CanonicalWorkflowDescription.add_stage` (`canonical.py` lines
159-207), check for check in source order: duplicate name, stage-name
validation, per-step name validation, the warning-only upstream loop (no
effect on the result), the order-violation loop over already added
stages, and the final required-steps loop — which tests
`name not in required_steps` for the *described* steps, a condition the
per-step validation has already excluded, so it can never fire. -/
def add_stage (stages : List StageDesc) (sd : StageDesc) :
    Except WfError (List StageDesc) :=
  match stages.find? (fun st => st.name == sd.name) with
  | some _ => .error (.duplicateStage sd.name)
  | none =>
    if STAGES.contains sd.name then
      match sd.steps.find? (fun s => !(STEPS_PER_STAGE sd.name).contains s) with
      | some s => .error (.unknownStep s)
      | none =>
        match (stages.map (fun st => st.name)).find?
            (fun name => (INTER_STAGE_DEPENDENCIES name).contains sd.name) with
        | some name => .error (.orderViolation sd.name name)
        | none =>
          match sd.steps.find?
              (fun s => !(STEPS_PER_STAGE sd.name).contains s) with
          | some _ => .error (.missingRequiredSteps sd.name)
          | none => .ok (stages ++ [sd])
    else .error (.unknownStage sd.name)

/-- Whether an `add_stage` result is the order-violation error. -/
def isOrderViolationResult : Except WfError (List StageDesc) → Bool
  | .error (.orderViolation _ _) => true
  | _ => false

/-- Aggregate gc3libs execution states observed by the monitor loop. -/
inductive AggState where
  | newT
  | submitted
  | running
  | terminated
  | stopped
  deriving DecidableEq

/-- The loop-exit test of `submit_jobs` (`api.py` lines 216-217):
`jobs.execution.state` is TERMINATED or STOPPED. -/
def isTerminalAgg : AggState → Bool
  | .terminated => true
  | .stopped => true
  | _ => false

/-- The `while True` monitor loop of `submit_jobs` (`api.py` lines
198-219) with the engine abstracted as the sequence of aggregate states
observed after the `progress()` call of each iteration.  Each recursive
call performs one iteration (sleep, progress, status collection, status
report); when `breakNext` is set the iteration still completes and then
the loop exits.  Returns the number of completed iterations, `none` when
the fuel is exhausted first. -/
def monitorLoop (states : Nat → AggState) (breakNext : Bool) (i : Nat) :
    Nat → Option Nat
  | 0 => none
  | fuel + 1 =>
      if breakNext then some (i + 1)
      else if isTerminalAgg (states i) then monitorLoop states true (i + 1) fuel
      else monitorLoop states false (i + 1) fuel

/-- Status record of one job, as collected by the monitoring utilities. -/
structure JobStatus where
  name : String
  exitcode : Int
  state : AggState
  deriving DecidableEq

/-- Modelled from the spec: `log_task_failure` (in
`tmlib.workflow.utils`, absent from the verified sources) "emits a
failure report listing every Job with non-zero exit code or Stopped
terminal state". -/
def failure_report (table : List JobStatus) : List JobStatus :=
  table.filter (fun j => j.exitcode != 0 || j.state == AggState.stopped)

/-- `submit_jobs` (`api.py` lines 155-224) after engine registration: run
the monitor loop, then report failures and return the full status table
(the table is abstracted as the final `get_task_data` snapshot). -/
def submit_jobs (states : Nat → AggState) (finalTable : List JobStatus)
    (fuel : Nat) : Option (List JobStatus × List JobStatus) :=
  match monitorLoop states false 0 fuel with
  | none => none
  | some _ => some (failure_report finalTable, finalTable)

/-- An HDF5 group tree: the datasets and subgroups of one group.
Modelled from the spec: the fragment store offers an existence check,
listing of child groups/datasets and typed read/write of one-dimensional
arrays (`DatasetReader`/`DatasetWriter` are not among the verified
sources). -/
inductive H5Tree where
  | node (datasets : List (String × List Int))
         (subgroups : List (String × H5Tree))

def H5Tree.datasets : H5Tree → List (String × List Int)
  | .node ds _ => ds

def H5Tree.subgroups : H5Tree → List (String × H5Tree)
  | .node _ gs => gs

/-- `re.search(r'objects/[^/]+/<mid>', s)` for a `mid` beginning with `/`:
some suffix of `s` starts with `objects/` followed by a non-empty
slash-free segment and then `mid`.  Because `mid` starts with `/`, the
backtracking segment match is forced to stop exactly at the next slash,
so taking the maximal slash-free run is complete. -/
def segThen (mid : List Char) (cs : List Char) : Bool :=
  decide (0 < (cs.takeWhile (fun c => c ≠ '/')).length) &&
    mid.isPrefixOf (cs.drop (cs.takeWhile (fun c => c ≠ '/')).length)

def regexObjectsSearch (mid : List Char) (s : String) : Bool :=
  s.data.tails.any (fun t =>
    "objects/".data.isPrefixOf t && segThen mid (t.drop 8))

/-- `re.search(r'objects/[^/]+/map_data/', g_path)`
(`data_fusion.py` line 261). -/
def matchesMapData (s : String) : Bool :=
  regexObjectsSearch "/map_data/".data s

/-- `re.search(r'objects/[^/]+/ids', d_path)`
(`data_fusion.py` line 267). -/
def matchesIds (s : String) : Bool :=
  regexObjectsSearch "/ids".data s

/-- The claim's map-data exclusion class restricted to what a dataset
path can satisfy through its parent group: `objects/<cat>/map_data/`
occurs and is followed by at least one further slash, i.e. the dataset
lives in a strict subgroup of the `map_data` group. -/
def deepMapData (s : String) : Bool :=
  s.data.tails.any (fun t =>
    "objects/".data.isPrefixOf t && segThen "/map_data/".data (t.drop 8) &&
      ((t.drop (8 + (t.drop 8 |>.takeWhile (fun c => c ≠ '/')).length + 10)).any
        (fun c => c = '/')))

/-- The dataset-copying inner loop of `update_datasets`
(`data_fusion.py` lines 264-273): for each dataset of the group at
`g_path`, skip identifier datasets, then copy when the path does not yet
exist in the target (`newHas` is the target's initial contents, `acc`
the datasets written so far by this merge — together the live
`new_file.exists` check). -/
def writeGroupDatasets (newHas : String → Bool) (g_path : String)
    (ds : List (String × List Int)) (acc : List (String × List Int)) :
    List (String × List Int) :=
  ds.foldl (fun a d =>
    if matchesIds (g_path ++ "/" ++ d.1) then a
    else if newHas (g_path ++ "/" ++ d.1) ||
        a.any (fun w => w.1 == g_path ++ "/" ++ d.1) then a
    else a ++ [(g_path ++ "/" ++ d.1, d.2)]) acc

/-- Number of group nodes in a forest; used as the recursion-depth fuel
for `copy_recursive` (it strictly dominates the fuel any recursion path
through the forest consumes). -/
def forestSize : List (String × H5Tree) → Nat
  | [] => 0
  | (_, .node _ gs2) :: rest => 1 + forestSize gs2 + forestSize rest
termination_by gs => sizeOf gs

/-- `copy_recursive` of `update_datasets` (`data_fusion.py` lines
257-275), as the list of `(path, data)` pairs written: for each subgroup
`g` of the group at `p`, skip the whole subtree when `g_path` matches the
map-data pattern, otherwise copy the group's datasets and recurse.  The
recursion is made structural through an explicit `fuel` bound on the
recursion depth; `update_datasets` passes `forestSize` of the forest,
which strictly dominates the fuel consumed along every recursion path,
so the exhausted-fuel branch is never taken on the actual argument. -/
def copy_recursive (newHas : String → Bool) :
    Nat → String → List (String × H5Tree) → List (String × List Int) →
    List (String × List Int)
  | 0, _, _, acc => acc
  | _ + 1, _, [], acc => acc
  | fuel + 1, p, (g, .node ds gs2) :: rest, acc =>
      if matchesMapData (p ++ "/" ++ g) then
        copy_recursive newHas fuel p rest acc
      else
        copy_recursive newHas fuel p rest
          (copy_recursive newHas fuel (p ++ "/" ++ g) gs2
            (writeGroupDatasets newHas (p ++ "/" ++ g) ds acc))

/-- `update_datasets(old_filename, new_filename)` (`data_fusion.py` lines
237-275): the datasets this merge writes into the target, starting the
recursion at the root path `'/'` (datasets sitting directly at the root
are never visited, as in the source). -/
def update_datasets (old : H5Tree) (newHas : String → Bool) :
    List (String × List Int) :=
  copy_recursive newHas (forestSize old.subgroups) "/" old.subgroups []

/-- Whether path `q` exists in the target after the merge: it existed
before, or the merge wrote it. -/
def merge_exists (old : H5Tree) (newHas : String → Bool) (q : String) :
    Bool :=
  newHas q || (update_datasets old newHas).any (fun w => w.1 == q)

/-- All dataset names of the tree are slash-free, so that each dataset's
path ends in its own slash-free final segment (HDF5 names cannot contain
`/`); fuel-indexed in step with `copy_recursive`. -/
def wfForest : Nat → List (String × H5Tree) → Bool
  | 0, _ => true
  | _ + 1, [] => true
  | fuel + 1, (_, .node ds gs2) :: rest =>
      ds.all (fun d => d.1.data.all (fun c => c ≠ '/')) &&
        wfForest fuel gs2 && wfForest fuel rest

/-- An HDF5 dataset as fusion sees it: the dimensions beyond the first
(`[]` means one-dimensional, matching `len(data.shape) > 1` checks) and
the entries along the first dimension.  Modelled from the spec: the
fragment store offers typed read/write of one-dimensional arrays and a
dimension query. -/
structure Dataset where
  extraDims : List Nat
  rows : List Int
  deriving DecidableEq

/-- The `objects/<name>/segmentation` group of a fragment: its datasets
and one level of subgroups, as discovery enumerates them
(`data_fusion.py` lines 73-95). -/
structure SegGroup where
  datasets : List (String × Dataset)
  subgroups : List (String × List (String × Dataset))
  deriving DecidableEq

/-- The `objects/<name>` group: optional `features` and `segmentation`
subgroups. -/
structure ObjGroup where
  features : Option (List (String × Dataset))
  segmentation : Option SegGroup
  deriving DecidableEq

/-- One Jterator data fragment file: the `/metadata` datasets and the
`/objects` groups. -/
structure Fragment where
  metadata : List (String × Dataset)
  objects : List (String × ObjGroup)
  deriving DecidableEq

/-- Failures of `combine_datasets`: the two `DataError`s the source
raises, and `structureError` for the untyped Python failures (IndexError
or KeyError on a missing discovered dataset, NameError on the stale
`data` variable, IndexError on an empty input list). -/
inductive FuseError where
  | dataIncomplete
  | shapeError (path : List String)
  | structureError
  deriving DecidableEq

def findD (ds : List (String × Dataset)) (name : String) : Option Dataset :=
  (ds.find? (fun d => d.1 == name)).map (fun d => d.2)

def findObj (fr : Fragment) (name : String) : Option ObjGroup :=
  (fr.objects.find? (fun o => o.1 == name)).map (fun o => o.2)

/-- `f.exists('objects/<obj>/features')` for a fragment. -/
def featuresExists (fr : Fragment) (obj : String) : Bool :=
  match findObj fr obj with
  | some og => og.features.isSome
  | none => false

/-- `f.exists('objects/<obj>/segmentation')` for a fragment. -/
def segmentationExists (fr : Fragment) (obj : String) : Bool :=
  match findObj fr obj with
  | some og => og.segmentation.isSome
  | none => false

/-- The discovery's first features dataset name for `obj`
(`datasets[obj_name]['features'][0]['path']` from fragment 0,
`data_fusion.py` line 113); `none` models the IndexError on an empty or
never-filled discovery list. -/
def discFirstFeatureName (frag0 : Fragment) (obj : String) : Option String :=
  match findObj frag0 obj with
  | some og => ((og.features.getD []).head?).map (fun d => d.1)
  | none => none

/-- The sizing step for one fragment and one object category
(`data_fusion.py` lines 109-120): the first discovered features
dataset's row count when the features group exists in this fragment,
else the segmentation `object_ids` row count when the segmentation group
exists, else the `DataError('Features or segmentation data must
exist.')`. -/
def sizeOfObjInFragment (frag0 fr : Fragment) (obj : String) :
    Except FuseError Nat :=
  if featuresExists fr obj then
    match discFirstFeatureName frag0 obj with
    | none => .error .structureError
    | some nm =>
        match findObj fr obj with
        | some og =>
            match og.features with
            | some fl =>
                match findD fl nm with
                | some d => .ok d.rows.length
                | none => .error .structureError
            | none => .error .structureError
        | none => .error .structureError
  else if segmentationExists fr obj then
    match findObj fr obj with
    | some og =>
        match og.segmentation with
        | some sg =>
            match findD sg.datasets "object_ids" with
            | some d => .ok d.rows.length
            | none => .error .structureError
        | none => .error .structureError
    | none => .error .structureError
  else .error .dataIncomplete

/-- `n_objects[obj_name] += dims[0]` on the accumulator list. -/
def addCount (counts : List (String × Nat)) (obj : String) (n : Nat) :
    List (String × Nat) :=
  counts.map (fun c => if c.1 == obj then (c.1, c.2 + n) else c)

/-- Inner sizing loop over the discovered object categories for one
fragment (`data_fusion.py` lines 109-120). -/
def sizeFragmentObjs (frag0 fr : Fragment) :
    List String → List (String × Nat) →
    Except FuseError (List (String × Nat))
  | [], counts => .ok counts
  | obj :: rest, counts =>
      match sizeOfObjInFragment frag0 fr obj with
      | .error e => .error e
      | .ok n => sizeFragmentObjs frag0 fr rest (addCount counts obj n)

/-- Outer sizing loop over all fragments (`data_fusion.py` lines
105-120). -/
def sizingPhase (frag0 : Fragment) (objNames : List String) :
    List Fragment → List (String × Nat) →
    Except FuseError (List (String × Nat))
  | [], counts => .ok counts
  | fr :: rest, counts =>
      match sizeFragmentObjs frag0 fr objNames counts with
      | .error e => .error e
      | .ok c2 => sizingPhase frag0 objNames rest c2

/-- HDF5 paths for fusion, as their slash-separated components (dataset
and group names cannot contain `/` in HDF5, so the components determine
the path string bijectively; `'/metadata/x'` starts with an empty
component for the leading slash, object paths carry no leading slash as
in the source's format strings). -/
abbrev DPath := List String

def metaPath (name : String) : DPath := ["", "metadata", name]

def featPath (obj name : String) : DPath := ["objects", obj, "features", name]

def segPath (obj name : String) : DPath := ["objects", obj, "segmentation", name]

def segSubPath (obj g name : String) : DPath :=
  ["objects", obj, "segmentation", g, name]

/-- The discovered per-category segmentation dataset paths of fragment 0
(`data_fusion.py` lines 73-95): the segmentation group's datasets, then
the datasets of each of its subgroups. -/
def discSegPaths (obj : String) (og : ObjGroup) : List DPath :=
  match og.segmentation with
  | some sg =>
      sg.datasets.map (fun d => segPath obj d.1) ++
        sg.subgroups.flatMap (fun g => g.2.map (fun d => segSubPath obj g.1 d.1))
  | none => []

/-- The discovered per-category features dataset paths of fragment 0
(`data_fusion.py` lines 52-61). -/
def discFeatPaths (obj : String) (og : ObjGroup) : List DPath :=
  (og.features.getD []).map (fun d => featPath obj d.1)

/-- All discovered dataset paths, in preallocation order
(`data_fusion.py` lines 124-136): metadata, then per object the
segmentation datasets followed by the features datasets. -/
def discoveredPaths (frag0 : Fragment) : List DPath :=
  frag0.metadata.map (fun d => metaPath d.1) ++
    frag0.objects.flatMap (fun o => discSegPaths o.1 o.2 ++ discFeatPaths o.1 o.2)

/-- The fused output file: preallocated datasets addressed by path. -/
abbrev FusedFile := List (DPath × List Int)

def lookupCount (counts : List (String × Nat)) (obj : String) : Nat :=
  ((counts.find? (fun c => c.1 == obj)).map (fun c => c.2)).getD 0

/-- Preallocation (`data_fusion.py` lines 124-136): every discovered
metadata dataset at `n_jobs` rows, every discovered per-category dataset
at that category's total row count (fill value 0; the claims only
concern written slices). -/
def preallocate (frag0 : Fragment) (nJobs : Nat)
    (counts : List (String × Nat)) : FusedFile :=
  frag0.metadata.map (fun d => (metaPath d.1, List.replicate nJobs (0 : Int))) ++
    frag0.objects.flatMap (fun o =>
      (discSegPaths o.1 o.2).map
        (fun p => (p, List.replicate (lookupCount counts o.1) (0 : Int))) ++
      (discFeatPaths o.1 o.2).map
        (fun p => (p, List.replicate (lookupCount counts o.1) (0 : Int))))

/-- Modelled from the spec: `DatasetWriter.write(path, data, index)` with
`index = range(start, start + len(data))` writes the data rows at the
slice beginning at `start` (typed write of a one-dimensional array). -/
def writeSlice (arr : List Int) (start : Nat) (data : List Int) : List Int :=
  arr.take start ++ data ++ arr.drop (start + data.length)

def outWrite (f : FusedFile) (p : DPath) (start : Nat) (data : List Int) :
    FusedFile :=
  f.map (fun e => if e.1 == p then (e.1, writeSlice e.2 start data) else e)

/-- One dataset loop of the copy phase (`data_fusion.py` lines 154-167,
177-190, 194-207, 215-228): for each dataset, fail with the
one-dimensionality `DataError` if it has extra dimensions, otherwise
write its rows at the group's current start index; the Python variable
`data` (the last read dataset) is threaded through as `last`. -/
def writeSeq : List (DPath × Dataset) → FusedFile → Nat →
    Option (List Int) → Except FuseError (FusedFile × Option (List Int))
  | [], f, _, last => .ok (f, last)
  | (p, d) :: rest, f, start, _ =>
      if d.extraDims.isEmpty then
        writeSeq rest (outWrite f p start d.rows) start (some d.rows)
      else .error (.shapeError p)

/-- The `/metadata` datasets of the current fragment as write entries. -/
def metaEntries (fr : Fragment) : List (DPath × Dataset) :=
  fr.metadata.map (fun d => (metaPath d.1, d.2))

/-- The current fragment's features datasets for `obj` (empty when the
group does not exist, as `f.exists` guards the loop). -/
def fragFeatEntries (fr : Fragment) (obj : String) : List (DPath × Dataset) :=
  match findObj fr obj with
  | some og =>
      match og.features with
      | some fl => fl.map (fun d => (featPath obj d.1, d.2))
      | none => []
  | none => []

/-- The current fragment's segmentation datasets for `obj`: the group's
own datasets, then each subgroup's datasets. -/
def fragSegEntries (fr : Fragment) (obj : String) : List (DPath × Dataset) :=
  match findObj fr obj with
  | some og =>
      match og.segmentation with
      | some sg =>
          sg.datasets.map (fun d => (segPath obj d.1, d.2)) ++
            sg.subgroups.flatMap
              (fun g => g.2.map (fun d => (segSubPath obj g.1 d.1, d.2)))
      | none => []
  | none => []

/-- Copy of one object category from one fragment (`data_fusion.py`
lines 171-228): the features block, then the segmentation block, all at
the category's current write cursor. -/
def copyObj (fr : Fragment) (obj : String) (f : FusedFile) (cursor : Nat)
    (last : Option (List Int)) :
    Except FuseError (FusedFile × Option (List Int)) :=
  match writeSeq (fragFeatEntries fr obj) f cursor last with
  | .error e => .error e
  | .ok (f1, l1) => writeSeq (fragSegEntries fr obj) f1 cursor l1

def getCursor (cursors : List (String × Nat)) (obj : String) : Nat :=
  ((cursors.find? (fun c => c.1 == obj)).map (fun c => c.2)).getD 0

def setCursor (cursors : List (String × Nat)) (obj : String) (n : Nat) :
    List (String × Nat) :=
  cursors.map (fun c => if c.1 == obj then (c.1, n) else c)

/-- The object loop of the copy phase for one fragment.  After each
category, `object_index_count[obj_name] += len(data)` advances the
cursor by the length of the *last read* dataset (`data_fusion.py` line
230); reading `data` before any dataset was ever read is Python's
NameError, modelled as `structureError`. -/
def copyObjs (fr : Fragment) :
    List String → FusedFile → List (String × Nat) → Option (List Int) →
    Except FuseError (FusedFile × List (String × Nat) × Option (List Int))
  | [], f, cursors, last => .ok (f, cursors, last)
  | obj :: rest, f, cursors, last =>
      match copyObj fr obj f (getCursor cursors obj) last with
      | .error e => .error e
      | .ok (f1, l1) =>
          match l1 with
          | none => .error .structureError
          | some dat =>
              copyObjs fr rest f1
                (setCursor cursors obj (getCursor cursors obj + dat.length))
                (some dat)

/-- Copy of one fragment (`data_fusion.py` lines 145-230): its metadata
datasets at the job index (one row per fragment), `job_index_count += 1`,
then every object category at its running cursor. -/
def copyFragment (objNames : List String) (fr : Fragment) (f : FusedFile)
    (jobIndex : Nat) (cursors : List (String × Nat))
    (last : Option (List Int)) :
    Except FuseError
      (FusedFile × Nat × List (String × Nat) × Option (List Int)) :=
  match writeSeq (metaEntries fr) f jobIndex last with
  | .error e => .error e
  | .ok (f1, l1) =>
      match copyObjs fr objNames f1 cursors l1 with
      | .error e => .error e
      | .ok (f2, cursors2, l2) => .ok (f2, jobIndex + 1, cursors2, l2)

/-- The copy phase over all fragments in input order. -/
def copyAll (objNames : List String) :
    List Fragment → FusedFile → Nat → List (String × Nat) →
    Option (List Int) →
    Except FuseError
      (FusedFile × Nat × List (String × Nat) × Option (List Int))
  | [], f, j, cs, l => .ok (f, j, cs, l)
  | fr :: rest, f, j, cs, l =>
      match copyFragment objNames fr f j cs l with
      | .error e => .error e
      | .ok (f1, j1, cs1, l1) => copyAll objNames rest f1 j1 cs1 l1

/-- `combine_datasets(input_files, output_file)` (`data_fusion.py` lines
12-234): discovery on the first fragment, sizing over all fragments,
preallocation, then the copy phase; an empty input list is the source's
IndexError on `input_files[0]`. -/
def combine_datasets (frags : List Fragment) : Except FuseError FusedFile :=
  match frags with
  | [] => .error .structureError
  | frag0 :: _ =>
      match sizingPhase frag0 (frag0.objects.map (fun o => o.1)) frags
          ((frag0.objects.map (fun o => o.1)).map (fun o => (o, 0))) with
      | .error e => .error e
      | .ok counts =>
          match copyAll (frag0.objects.map (fun o => o.1)) frags
              (preallocate frag0 frags.length counts) 0
              ((frag0.objects.map (fun o => o.1)).map (fun o => (o, 0)))
              none with
          | .error e => .error e
          | .ok (f, _, _, _) => .ok f

/-- The dataset a fragment holds at a discovered path. -/
def fragDatasetAt (fr : Fragment) : DPath → Option Dataset
  | ["", "metadata", name] => findD fr.metadata name
  | ["objects", obj, "features", name] =>
      (findObj fr obj).bind (fun og =>
        og.features.bind (fun fl => findD fl name))
  | ["objects", obj, "segmentation", name] =>
      (findObj fr obj).bind (fun og =>
        og.segmentation.bind (fun sg => findD sg.datasets name))
  | ["objects", obj, "segmentation", g, name] =>
      (findObj fr obj).bind (fun og =>
        og.segmentation.bind (fun sg =>
          ((sg.subgroups.find? (fun x => x.1 == g)).map (fun x => x.2)).bind
            (fun ds => findD ds name)))
  | _ => none

/-- The rows a fragment contributes at a discovered path. -/
def fragRowsAt (fr : Fragment) (p : DPath) : List Int :=
  ((fragDatasetAt fr p).map (fun d => d.rows)).getD []

def lookupFile (f : FusedFile) (p : DPath) : Option (List Int) :=
  (f.find? (fun e => e.1 == p)).map (fun e => e.2)

/-- The per-fragment row count of an object group: the sizing result
under a well-formed structure (first features dataset's length, else the
`object_ids` length, else 0). -/
def objCount (og : ObjGroup) : Nat :=
  match og.features with
  | some (d :: _) => d.2.rows.length
  | _ =>
      match og.segmentation with
      | some sg => ((findD sg.datasets "object_ids").map
          (fun d => d.rows.length)).getD 0
      | none => 0

/-- The row count category `obj` has in fragment `fr`. -/
def objCountAt (fr : Fragment) (obj : String) : Nat :=
  ((findObj fr obj).map objCount).getD 0

def dsNames (l : List (String × Dataset)) : List String := l.map (fun d => d.1)

/-- The name skeleton of an object group. -/
def objSkel (og : ObjGroup) :
    Option (List String) × Option (List String × List (String × List String)) :=
  (og.features.map dsNames,
   og.segmentation.map (fun sg =>
     (dsNames sg.datasets, sg.subgroups.map (fun g => (g.1, dsNames g.2)))))

/-- The name skeleton of a fragment: the dataset taxonomy that discovery
extracts from fragment 0 and that all fragments are assumed to share. -/
def fragSkel (fr : Fragment) :
    List String × List (String ×
      (Option (List String) ×
        Option (List String × List (String × List String)))) :=
  (dsNames fr.metadata, fr.objects.map (fun o => (o.1, objSkel o.2)))

def DatasetOk (d : Dataset) (n : Nat) : Prop :=
  d.extraDims = [] ∧ d.rows.length = n

/-- Per-category well-formedness of a fragment's object group: features
or segmentation data exist, a present features group is non-empty, a
segmentation-only category has its `object_ids` dataset, and every
dataset is one-dimensional with the category's row count. -/
def ObjOk (og : ObjGroup) : Prop :=
  (og.features.isSome = true ∨ og.segmentation.isSome = true) ∧
  (∀ fl, og.features = some fl → fl ≠ []) ∧
  (og.features = none → ∀ sg, og.segmentation = some sg →
    ∃ d, findD sg.datasets "object_ids" = some d) ∧
  (∀ fl, og.features = some fl → ∀ e ∈ fl, DatasetOk e.2 (objCount og)) ∧
  (∀ sg, og.segmentation = some sg →
    (∀ e ∈ sg.datasets, DatasetOk e.2 (objCount og)) ∧
    (∀ g ∈ sg.subgroups, ∀ e ∈ g.2, DatasetOk e.2 (objCount og)))

/-- Well-formedness of one fragment: one-row one-dimensional metadata
datasets and per-category `ObjOk`. -/
def FragmentOk (fr : Fragment) : Prop :=
  (∀ e ∈ fr.metadata, e.2.extraDims = [] ∧ e.2.rows.length = 1) ∧
  (∀ o ∈ fr.objects, ObjOk o.2)

/-- Name-uniqueness within each group of a fragment (HDF5 guarantees
sibling names are unique). -/
def FragNodup (fr : Fragment) : Prop :=
  (fr.metadata.map (fun d => d.1)).Nodup ∧
  (fr.objects.map (fun o => o.1)).Nodup ∧
  (∀ o ∈ fr.objects,
    (∀ fl, o.2.features = some fl → (fl.map (fun d => d.1)).Nodup) ∧
    (∀ sg, o.2.segmentation = some sg →
      (sg.datasets.map (fun d => d.1)).Nodup ∧
      (sg.subgroups.map (fun g => g.1)).Nodup ∧
      ∀ g ∈ sg.subgroups, (g.2.map (fun d => d.1)).Nodup))

/-- The hypotheses of the fusion claim: a non-empty fragment list headed
by `frag0`, sibling names unique, and every fragment sharing fragment
0's dataset taxonomy with well-formed, uniformly sized, one-dimensional
datasets. -/
def Uniform (frags : List Fragment) (frag0 : Fragment) : Prop :=
  frags.head? = some frag0 ∧ FragNodup frag0 ∧
  ∀ fr ∈ frags, fragSkel fr = fragSkel frag0 ∧ FragmentOk fr

theorem map_self_of_mem {α : Type} (l : List α) (f : α → α)
    (h : ∀ x ∈ l, f x = x) : l.map f = l := by
  conv_rhs => rw [← List.map_id l]
  exact List.map_congr_left h

theorem osJoin_osRelpath (root p : Path) (h : root.isPrefixOf p) :
    osJoin root (osRelpath p root) = p := by
  unfold osJoin osRelpath
  rw [if_pos h]
  rcases (List.isPrefixOf_iff_prefix.mp h) with ⟨t, ht⟩
  subst ht
  simp

theorem absDictEntry_relDictEntry (root : Path) (e : DictEntry)
    (h : ∀ p ∈ pathsOfDictEntry e, root.isPrefixOf p) :
    absDictEntry root (relDictEntry root e) = e := by
  cases e with
  | single p =>
      exact congrArg DictEntry.single
        (osJoin_osRelpath root p (h p (by simp [pathsOfDictEntry])))
  | many ps =>
      simp only [relDictEntry, absDictEntry, List.map_map]
      exact congrArg DictEntry.many (map_self_of_mem ps _
        (fun p hp => osJoin_osRelpath root p (h p hp)))

theorem absInputValue_relInputValue (root : Path) (v : InputValue)
    (h : ∀ p ∈ pathsOfInputValue v, root.isPrefixOf p) :
    absInputValue root (relInputValue root v) = v := by
  cases v with
  | dictV m =>
      simp only [relInputValue, absInputValue, List.map_map]
      refine congrArg InputValue.dictV (map_self_of_mem m _ ?_)
      intro kv hkv
      refine Prod.ext rfl ?_
      refine absDictEntry_relDictEntry root kv.2 ?_
      intro p hp
      exact h p (by
        simp only [pathsOfInputValue, List.mem_flatMap]
        exact ⟨kv, hkv, hp⟩)
  | listV ps =>
      simp only [relInputValue, absInputValue, List.map_map]
      exact congrArg InputValue.listV (map_self_of_mem ps _
        (fun p hp => osJoin_osRelpath root p (h p hp)))
  | nestedV pss =>
      simp only [relInputValue, absInputValue, List.map_map]
      refine congrArg InputValue.nestedV (map_self_of_mem pss _ ?_)
      intro v hv
      simp only [Function.comp_apply, List.map_map]
      refine map_self_of_mem v _ ?_
      intro p hp
      refine osJoin_osRelpath root p (h p ?_)
      simp only [pathsOfInputValue, List.mem_flatMap]
      exact ⟨v, hv, hp⟩

theorem absOutputValue_relOutputValue (root : Path) (v : OutputValue)
    (h : ∀ p ∈ pathsOfOutputValue v, root.isPrefixOf p) :
    absOutputValue root (relOutputValue root v) = v := by
  cases v with
  | strV p =>
      exact congrArg OutputValue.strV
        (osJoin_osRelpath root p (h p (by simp [pathsOfOutputValue])))
  | listV ps =>
      simp only [relOutputValue, absOutputValue, List.map_map]
      exact congrArg OutputValue.listV (map_self_of_mem ps _
        (fun p hp => osJoin_osRelpath root p (h p hp)))
  | nestedV pss =>
      simp only [relOutputValue, absOutputValue, List.map_map]
      refine congrArg OutputValue.nestedV (map_self_of_mem pss _ ?_)
      intro v hv
      simp only [Function.comp_apply, List.map_map]
      refine map_self_of_mem v _ ?_
      intro p hp
      refine osJoin_osRelpath root p (h p ?_)
      simp only [pathsOfOutputValue, List.mem_flatMap]
      exact ⟨v, hv, hp⟩

/-- C2: converting a batch's paths to root-relative form and back to
absolute form is the identity whenever every path of the batch is an
absolute path strictly under the experiment root. -/
theorem make_paths_roundtrip (root : Path) (b : Batch)
    (h : BatchRootedUnder root b) :
    make_paths_absolute root (make_paths_relative root b) = b := by
  have hin : ∀ p ∈ b.inputs.flatMap (fun kv => pathsOfInputValue kv.2),
      root.isPrefixOf p := by
    intro p hp
    exact (h p (by simp only [pathsOfBatch, List.mem_append]; exact Or.inl hp)).1
  have hout : ∀ p ∈ b.outputs.flatMap (fun kv => pathsOfOutputValue kv.2),
      root.isPrefixOf p := by
    intro p hp
    exact (h p (by simp only [pathsOfBatch, List.mem_append]; exact Or.inr hp)).1
  cases b with
  | mk i ins outs =>
      simp only [make_paths_relative, make_paths_absolute, List.map_map,
        Batch.mk.injEq, true_and]
      constructor
      · refine map_self_of_mem ins _ ?_
        intro kv hkv
        refine Prod.ext rfl ?_
        refine absInputValue_relInputValue root kv.2 ?_
        intro p hp
        refine hin p ?_
        simp only [List.mem_flatMap]
        exact ⟨kv, hkv, hp⟩
      · refine map_self_of_mem outs _ ?_
        intro kv hkv
        refine Prod.ext rfl ?_
        refine absOutputValue_relOutputValue root kv.2 ?_
        intro p hp
        refine hout p ?_
        simp only [List.mem_flatMap]
        exact ⟨kv, hkv, hp⟩

theorem chunkList_join {α : Type} (m : Nat) (l : List α) :
    (chunkList m l).flatten = l := by
  induction l using chunkList.induct m with
  | case1 => simp [chunkList]
  | case2 x xs ih =>
      rw [chunkList]
      simp only [List.flatten_cons, List.cons_append, ih, List.take_append_drop]

theorem chunkList_ne_nil_mem {α : Type} (m : Nat) (l : List α) :
    ∀ c ∈ chunkList m l, c ≠ [] := by
  induction l using chunkList.induct m with
  | case1 => intro c hc; rw [chunkList] at hc; cases hc
  | case2 x xs ih =>
      intro c hc
      rw [chunkList] at hc
      rcases List.mem_cons.mp hc with h | h
      · subst h; simp
      · exact ih c h

theorem chunkList_eq_nil_iff {α : Type} (m : Nat) (l : List α) :
    chunkList m l = [] ↔ l = [] := by
  cases l with
  | nil => simp [chunkList]
  | cons x xs => rw [chunkList]; simp

theorem chunkList_dropLast_length {α : Type} (m : Nat) (l : List α) :
    ∀ c ∈ (chunkList m l).dropLast, c.length = max 1 m := by
  induction l using chunkList.induct m with
  | case1 => intro c hc; simp [chunkList] at hc
  | case2 x xs ih =>
      intro c hc
      rw [chunkList] at hc
      by_cases hrest : chunkList m (xs.drop (m - 1)) = []
      · rw [hrest] at hc
        simp at hc
      · rw [List.dropLast_cons_of_ne_nil hrest] at hc
        rcases List.mem_cons.mp hc with h | h
        · subst h
          have hxs : xs.drop (m - 1) ≠ [] := by
            intro hif; exact hrest (by rw [hif, chunkList])
          have hlen : m - 1 ≤ xs.length := by
            by_contra hgt
            push_neg at hgt
            exact hxs (List.drop_eq_nil_of_le (Nat.le_of_lt hgt))
          simp only [List.length_cons, List.length_take]
          omega
        · exact ih c h

/-- C9: `_create_batches(li, n)` partitions `li`: the chunks concatenate
back to `li`, every chunk except possibly the last has length
`max 1 n`, no chunk is empty, and the result is empty exactly when `li`
is empty. -/
theorem create_batches_partition {α : Type} (li : List α) (n : Int) :
    (_create_batches li n).flatten = li ∧
    (∀ c ∈ (_create_batches li n).dropLast, (c.length : Int) = max 1 n) ∧
    (∀ c ∈ _create_batches li n, c ≠ []) ∧
    (_create_batches li n = [] ↔ li = []) := by
  refine ⟨chunkList_join _ li, ?_, chunkList_ne_nil_mem _ li,
    chunkList_eq_nil_iff _ li⟩
  intro c hc
  have h := chunkList_dropLast_length (max 1 n).toNat li c hc
  have h1 : (1 : Int) ≤ max 1 n := le_max_left 1 n
  rw [h]
  have : ((max 1 n).toNat : Int) = max 1 n := Int.toNat_of_nonneg (by omega)
  omega

/-- Closed-form instance of C9 at a concrete list and chunk size. -/
theorem create_batches_partition_witness :
    (_create_batches [1, 2, 3, 4, 5] (2 : Int)).flatten = [1, 2, 3, 4, 5] ∧
    (∀ c ∈ (_create_batches [1, 2, 3, 4, 5] (2 : Int)).dropLast,
      (c.length : Int) = max 1 2) ∧
    (∀ c ∈ _create_batches [1, 2, 3, 4, 5] (2 : Int), c ≠ []) ∧
    (_create_batches [1, 2, 3, 4, 5] (2 : Int) = [] ↔ ([1, 2, 3, 4, 5] : List Nat) = []) :=
  create_batches_partition [1, 2, 3, 4, 5] 2

theorem map_fix_of_map_eq_self {α : Type} (f : α → α) (l : List α)
    (h : l.map f = l) : ∀ x ∈ l, f x = x := by
  induction l with
  | nil => intro x hx; cases hx
  | cons a t ih =>
      simp only [List.map_cons, List.cons.injEq] at h
      intro x hx
      rcases List.mem_cons.mp hx with hx | hx
      · subst hx; exact h.1
      · exact ih h.2 x hx

theorem pathsOfDictEntry_rel (root : Path) (e : DictEntry) :
    pathsOfDictEntry (relDictEntry root e) =
      (pathsOfDictEntry e).map (fun p => osRelpath p root) := by
  cases e <;> simp [relDictEntry, pathsOfDictEntry]

theorem pathsOfInputValue_rel (root : Path) (v : InputValue) :
    pathsOfInputValue (relInputValue root v) =
      (pathsOfInputValue v).map (fun p => osRelpath p root) := by
  cases v with
  | dictV m =>
      simp only [relInputValue, pathsOfInputValue, List.flatMap_map,
        List.map_flatMap, Function.comp, pathsOfDictEntry_rel]
  | listV ps => rfl
  | nestedV pss =>
      simp only [relInputValue, pathsOfInputValue, List.flatMap_map,
        List.map_flatMap, Function.comp, id_eq]

theorem pathsOfOutputValue_rel (root : Path) (v : OutputValue) :
    pathsOfOutputValue (relOutputValue root v) =
      (pathsOfOutputValue v).map (fun p => osRelpath p root) := by
  cases v with
  | strV p => rfl
  | listV ps => rfl
  | nestedV pss =>
      simp only [relOutputValue, pathsOfOutputValue, List.flatMap_map,
        List.map_flatMap, Function.comp, id_eq]

theorem pathsOfBatch_rel (root : Path) (b : Batch) :
    pathsOfBatch (make_paths_relative root b) =
      (pathsOfBatch b).map (fun p => osRelpath p root) := by
  simp only [pathsOfBatch, make_paths_relative, List.flatMap_map,
    List.map_append, List.map_flatMap, Function.comp,
    pathsOfInputValue_rel, pathsOfOutputValue_rel]

theorem osRelpath_ne (root p : Path) (hroot : root ≠ [])
    (h : RootedUnder root p) : osRelpath p root ≠ p := by
  unfold osRelpath
  rw [if_pos h.1]
  intro heq
  have hlen := congrArg List.length heq
  simp only [List.length_drop] at hlen
  have h2 := h.2
  have hz : root.length = 0 := by omega
  exact hroot (List.length_eq_zero.mp hz)

theorem make_paths_relative_ne (root : Path) (b : Batch) (hroot : root ≠ [])
    (p : Path) (hp : p ∈ pathsOfBatch b) (h : RootedUnder root p) :
    make_paths_relative root b ≠ b := by
  intro heq
  have hpaths := congrArg pathsOfBatch heq
  rw [pathsOfBatch_rel] at hpaths
  exact osRelpath_ne root p hroot h
    (map_fix_of_map_eq_self _ (pathsOfBatch b) hpaths p hp)

/-- C10: `write_job_files` leaves the caller's batches holding
root-relative paths: the post-call job descriptions equal the
originals with `_make_paths_relative` applied to every run and collect
batch (the in-place mutation made explicit), and whenever some run batch
held a path rooted strictly under a non-empty experiment root, the
post-call descriptions differ from the pre-call ones — persisting is not
side-effect-free on the in-memory batches. -/
theorem write_job_files_mutates_batches (root : Path) (step : String)
    (jd : JobDescriptions) (hck : check_io_description jd = true)
    (hroot : root ≠ []) (b : Batch) (hb : b ∈ jd.run)
    (p : Path) (hp : p ∈ pathsOfBatch b) (hr : RootedUnder root p) :
    ∃ files post, write_job_files root step jd = .ok (files, post) ∧
      post.run = jd.run.map (make_paths_relative root) ∧
      post.collect = jd.collect.map (make_paths_relative root) ∧
      post ≠ jd := by
  have hneq : ∀ post : JobDescriptions,
      post.run = jd.run.map (make_paths_relative root) → post ≠ jd := by
    intro post hpost heq
    rw [heq] at hpost
    exact make_paths_relative_ne root b hroot p hp hr
      (map_fix_of_map_eq_self _ jd.run hpost.symm b hb)
  unfold write_job_files
  rw [if_pos hck]
  cases hcol : jd.collect with
  | none =>
      exact ⟨_, _, rfl, rfl, rfl, hneq _ rfl⟩
  | some c =>
      exact ⟨_, _, rfl, rfl, rfl, hneq _ rfl⟩

/-- Closed-form instance of C10: writing a one-batch description at root
`["r"]` succeeds and leaves the caller's batch rewritten to the relative
path `["x"]`, a different value than before the call. -/
theorem write_job_files_mutates_batches_witness :
    ∃ files post,
      write_job_files ["r"] "step"
        ⟨[Batch.mk 1 [("k", InputValue.listV [["r", "x"]])]
            [("o", OutputValue.listV [["r", "y"]])]], none⟩ = .ok (files, post) ∧
      post.run = [Batch.mk 1 [("k", InputValue.listV [["r", "x"]])]
            [("o", OutputValue.listV [["r", "y"]])]].map (make_paths_relative ["r"]) ∧
      post.collect = (none : Option Batch).map (make_paths_relative ["r"]) ∧
      post ≠ ⟨[Batch.mk 1 [("k", InputValue.listV [["r", "x"]])]
            [("o", OutputValue.listV [["r", "y"]])]], none⟩ :=
  write_job_files_mutates_batches ["r"] "step" _ (by decide) (by decide)
    (Batch.mk 1 [("k", InputValue.listV [["r", "x"]])]
      [("o", OutputValue.listV [["r", "y"]])]) (by decide)
    ["r", "x"] (by decide) (by decide)

/-- Closed-form instance of C2: the relative/absolute round trip is the
identity on a concrete batch rooted under `["r"]`. -/
theorem make_paths_roundtrip_witness :
    make_paths_absolute ["r"] (make_paths_relative ["r"]
        (Batch.mk 1 [("k", InputValue.dictV [("s", DictEntry.single ["r", "x"])]),
                     ("l", InputValue.nestedV [[["r", "a"], ["r", "b"]]])]
                    [("o", OutputValue.strV ["r", "y"])])) =
      Batch.mk 1 [("k", InputValue.dictV [("s", DictEntry.single ["r", "x"])]),
                  ("l", InputValue.nestedV [[["r", "a"], ["r", "b"]]])]
                 [("o", OutputValue.strV ["r", "y"])] :=
  make_paths_roundtrip ["r"] _ (by decide)

theorem pathsOfDictEntry_abs (root : Path) (e : DictEntry) :
    pathsOfDictEntry (absDictEntry root e) =
      (pathsOfDictEntry e).map (osJoin root) := by
  cases e <;> simp [absDictEntry, pathsOfDictEntry]

theorem pathsOfInputValue_abs (root : Path) (v : InputValue) :
    pathsOfInputValue (absInputValue root v) =
      (pathsOfInputValue v).map (osJoin root) := by
  cases v with
  | dictV m =>
      simp only [absInputValue, pathsOfInputValue, List.flatMap_map,
        List.map_flatMap, Function.comp, pathsOfDictEntry_abs]
  | listV ps => rfl
  | nestedV pss =>
      simp only [absInputValue, pathsOfInputValue, List.flatMap_map,
        List.map_flatMap, Function.comp, id_eq]

theorem pathsOfOutputValue_abs (root : Path) (v : OutputValue) :
    pathsOfOutputValue (absOutputValue root v) =
      (pathsOfOutputValue v).map (osJoin root) := by
  cases v with
  | strV p => rfl
  | listV ps => rfl
  | nestedV pss =>
      simp only [absOutputValue, pathsOfOutputValue, List.flatMap_map,
        List.map_flatMap, Function.comp, id_eq]

theorem pathsOfBatch_abs (root : Path) (b : Batch) :
    pathsOfBatch (make_paths_absolute root b) =
      (pathsOfBatch b).map (osJoin root) := by
  simp only [pathsOfBatch, make_paths_absolute, List.flatMap_map,
    List.map_append, List.map_flatMap, Function.comp,
    pathsOfInputValue_abs, pathsOfOutputValue_abs]

/-- C6: reading job descriptions from a directory with zero run-job files
always fails with the no-descriptions error; with run files but no
collect file the result has no collect entry; and every path of every
returned batch has been prefixed with the experiment root (converted to
absolute). -/
theorem get_job_descriptions_spec (root : Path)
    (dir : List (String × Batch)) :
    (dir.filter (fun f => matchesRunPattern f.1) = [] →
      get_job_descriptions_from_files root dir =
        .error JobError.noDescriptionsFound) ∧
    (dir.filter (fun f => matchesRunPattern f.1) ≠ [] →
      dir.filter (fun f => matchesCollectPattern f.1) = [] →
      ∃ jd, get_job_descriptions_from_files root dir = .ok jd ∧
        jd.collect = none) ∧
    (∀ jd, get_job_descriptions_from_files root dir = .ok jd →
      ∀ b ∈ jd.run ++ jd.collect.toList, ∀ p ∈ pathsOfBatch b,
        ∃ q, p = osJoin root q) := by
  refine ⟨?_, ?_, ?_⟩
  · intro h
    unfold get_job_descriptions_from_files
    rw [h]
    rfl
  · intro h1 h2
    have h1b : (dir.filter (fun f => matchesRunPattern f.1)).isEmpty = false := by
      rw [List.isEmpty_eq_false]
      exact h1
    unfold get_job_descriptions_from_files
    rw [h1b, h2]
    exact ⟨_, rfl, rfl⟩
  · intro jd hjd b hb p hp
    have habs : ∀ b0 : Batch, b = make_paths_absolute root b0 →
        ∃ q, p = osJoin root q := by
      intro b0 hb0
      rw [hb0, pathsOfBatch_abs] at hp
      rcases List.mem_map.mp hp with ⟨q, _, hq⟩
      exact ⟨q, hq.symm⟩
    unfold get_job_descriptions_from_files at hjd
    split at hjd
    · exact absurd hjd (by simp)
    · split at hjd
      · cases hjd
        simp only [Option.toList_none, List.append_nil] at hb
        rcases List.mem_map.mp hb with ⟨f, _, hf⟩
        exact habs f.2 hf.symm
      · cases hjd
        rcases List.mem_append.mp hb with hrun | hcol
        · rcases List.mem_map.mp hrun with ⟨f, _, hf⟩
          exact habs f.2 hf.symm
        · simp only [Option.toList_some, List.mem_singleton] at hcol
          exact habs _ hcol

/-- Closed-form instance of C6 at two concrete directories: an empty
directory yields the no-descriptions error, and a directory with one run
file and no collect file yields a result without a collect entry. -/
theorem get_job_descriptions_spec_witness :
    get_job_descriptions_from_files ["r"]
      ([] : List (String × Batch)) = .error JobError.noDescriptionsFound ∧
    (∃ jd, get_job_descriptions_from_files ["r"]
        [("step_run_000001.job.json",
          Batch.mk 1 [("k", InputValue.listV [["x"]])]
            [("o", OutputValue.listV [["y"]])])] = .ok jd ∧
      jd.collect = none) :=
  ⟨(get_job_descriptions_spec ["r"] []).1 rfl,
   (get_job_descriptions_spec ["r"]
      [("step_run_000001.job.json",
        Batch.mk 1 [("k", InputValue.listV [["x"]])]
          [("o", OutputValue.listV [["y"]])])]).2.1
     (by decide) (by decide)⟩

/-- C4 (code-bug evidence): `add_stage` accepts and appends a stage whose
described steps are a strict subset of the registry's required steps for
that stage, although the method's docstring says it raises "when a
required step is not described": the loop at `canonical.py` lines
202-206 tests `name not in required_steps` over the *described* steps,
which the earlier per-step validation has already made impossible. -/
theorem add_stage_accepts_missing_required_step :
    (["metaextract"] : List String) ≠ STEPS_PER_STAGE "image_conversion" ∧
    (∀ s ∈ (["metaextract"] : List String),
      s ∈ STEPS_PER_STAGE "image_conversion") ∧
    add_stage [] ⟨"image_conversion", ["metaextract"]⟩ =
      .ok [⟨"image_conversion", ["metaextract"]⟩] :=
  ⟨by decide, by decide, rfl⟩

/-- C5 counterexample: with `image_conversion` and `image_preprocessing`
already added, re-adding `image_conversion` — a stage the already-added
`image_preprocessing` lists as a required upstream — fails with the
duplicate-stage error, not the order-violation error, because the
duplicate check runs first. -/
theorem add_stage_order_counterexample :
    "image_conversion" ∈ INTER_STAGE_DEPENDENCIES "image_preprocessing" ∧
    add_stage
      [⟨"image_conversion", ["metaextract", "metaconfig", "imextract"]⟩,
       ⟨"image_preprocessing", ["corilla", "align"]⟩]
      ⟨"image_conversion", ["metaextract", "metaconfig", "imextract"]⟩ =
      .error (.duplicateStage "image_conversion") ∧
    isOrderViolationResult (add_stage
      [⟨"image_conversion", ["metaextract", "metaconfig", "imextract"]⟩,
       ⟨"image_preprocessing", ["corilla", "align"]⟩]
      ⟨"image_conversion", ["metaextract", "metaconfig", "imextract"]⟩) =
      false :=
  ⟨by decide, rfl, rfl⟩

/-- C5 (amended): adding a stage whose name equals an already-added
stage's name always fails with the duplicate-stage error; adding a stage
that some already-added stage lists as a required upstream fails with
the order-violation error provided the checks preceding it pass — the
name is not already present, it is a known stage name, and every
described step is a known step of that stage.  Either way an error is
returned and no extended stage list is produced. -/
theorem add_stage_duplicate_and_order (stages : List StageDesc)
    (sd : StageDesc) :
    ((∃ st ∈ stages, st.name = sd.name) →
      add_stage stages sd = .error (.duplicateStage sd.name)) ∧
    ((¬ ∃ st ∈ stages, st.name = sd.name) →
      sd.name ∈ STAGES →
      (∀ s ∈ sd.steps, s ∈ STEPS_PER_STAGE sd.name) →
      (∃ st ∈ stages, sd.name ∈ INTER_STAGE_DEPENDENCIES st.name) →
      ∃ upstream,
        add_stage stages sd = .error (.orderViolation sd.name upstream)) := by
  constructor
  · rintro ⟨st, hst, hname⟩
    have hsome : (stages.find? (fun st => st.name == sd.name)).isSome :=
      List.find?_isSome.mpr ⟨st, hst, by simp [hname]⟩
    unfold add_stage
    cases hfind : stages.find? (fun st => st.name == sd.name) with
    | none => rw [hfind] at hsome; simp at hsome
    | some x => rfl
  · rintro hdup hstage hsteps ⟨st, hst, hdep⟩
    have hfind : stages.find? (fun st => st.name == sd.name) = none := by
      rw [List.find?_eq_none]
      intro x hx
      simp only [beq_iff_eq]
      intro hcon
      exact hdup ⟨x, hx, hcon⟩
    have hcont : STAGES.contains sd.name = true := by
      simpa using hstage
    have hstep : sd.steps.find?
        (fun s => !(STEPS_PER_STAGE sd.name).contains s) = none := by
      rw [List.find?_eq_none]
      intro s hs
      simpa using hsteps s hs
    have hdsome : ((stages.map (fun st => st.name)).find?
        (fun name => (INTER_STAGE_DEPENDENCIES name).contains sd.name)).isSome :=
      List.find?_isSome.mpr ⟨st.name, List.mem_map_of_mem _ hst, by simpa using hdep⟩
    unfold add_stage
    rw [hfind, hcont, hstep]
    cases hfd : (stages.map (fun st => st.name)).find?
        (fun name => (INTER_STAGE_DEPENDENCIES name).contains sd.name) with
    | none => rw [hfd] at hdsome; simp at hdsome
    | some upstream => exact ⟨upstream, by simp⟩

/-- Closed-form instance of the amended C5: a duplicate add fails with
the duplicate-stage error, and adding `image_conversion` after
`image_preprocessing` (which requires it upstream) fails with the
order-violation error. -/
theorem add_stage_duplicate_and_order_witness :
    add_stage [⟨"image_conversion", ["metaextract"]⟩]
        ⟨"image_conversion", ["metaextract"]⟩ =
      .error (.duplicateStage "image_conversion") ∧
    ∃ upstream,
      add_stage [⟨"image_preprocessing", ["corilla", "align"]⟩]
          ⟨"image_conversion", ["metaextract"]⟩ =
        .error (.orderViolation "image_conversion" upstream) :=
  ⟨(add_stage_duplicate_and_order [⟨"image_conversion", ["metaextract"]⟩]
      ⟨"image_conversion", ["metaextract"]⟩).1
      ⟨⟨"image_conversion", ["metaextract"]⟩, by decide, rfl⟩,
   (add_stage_duplicate_and_order [⟨"image_preprocessing", ["corilla", "align"]⟩]
      ⟨"image_conversion", ["metaextract"]⟩).2
      (by decide) (by decide) (by decide)
      ⟨⟨"image_preprocessing", ["corilla", "align"]⟩, by decide, by decide⟩⟩

theorem monitorLoop_exits (states : Nat → AggState) (k : Nat)
    (hmin : ∀ j, j < k → isTerminalAgg (states j) = false)
    (hk : isTerminalAgg (states k) = true) :
    ∀ fuel j, j ≤ k → k + 2 - j ≤ fuel →
      monitorLoop states false j fuel = some (k + 2) := by
  intro fuel
  induction fuel with
  | zero => intro j hj hf; omega
  | succ f ih =>
      intro j hj hf
      by_cases hjk : j = k
      · subst hjk
        simp only [monitorLoop, Bool.false_eq_true, if_false, hk, if_true]
        cases f with
        | zero => omega
        | succ f2 => simp [monitorLoop]
      · have hjlt : j < k := lt_of_le_of_ne hj hjk
        simp only [monitorLoop, Bool.false_eq_true, if_false, hmin j hjlt]
        exact ih (j + 1) (by omega) (by omega)

/-- C7: once the aggregate execution state first becomes Terminated or
Stopped (at iteration index `k`), the monitor loop completes exactly one
further iteration — `k + 2` iterations in total, each with its sleep,
progress call and status report — and then exits; `submit_jobs` then
returns the failure report together with the full status table, and the
report holds exactly the jobs with non-zero exit code or Stopped state.
The exit condition depends only on the aggregate state sequence, never on
individual failures in the table, so a failing job cannot abort the
loop. -/
theorem submit_jobs_monitoring (states : Nat → AggState) (k : Nat)
    (hmin : ∀ j, j < k → isTerminalAgg (states j) = false)
    (hk : isTerminalAgg (states k) = true)
    (fuel : Nat) (hfuel : k + 2 ≤ fuel) (table : List JobStatus) :
    monitorLoop states false 0 fuel = some (k + 2) ∧
    submit_jobs states table fuel = some (failure_report table, table) ∧
    ∀ j, j ∈ failure_report table ↔
      j ∈ table ∧ (j.exitcode ≠ 0 ∨ j.state = AggState.stopped) := by
  have hloop := monitorLoop_exits states k hmin hk fuel 0 (by omega) (by omega)
  refine ⟨hloop, ?_, ?_⟩
  · unfold submit_jobs
    rw [hloop]
  · intro j
    unfold failure_report
    rw [List.mem_filter]
    simp [bne_iff_ne]

/-- Closed-form instance of C7: the aggregate state first turns
Terminated at iteration 3, the loop does 5 iterations, and the failure
report over a five-job table flags the one job with a non-zero exit
code. -/
theorem submit_jobs_monitoring_witness :
    monitorLoop
        (fun i => if i < 3 then AggState.running else AggState.terminated)
        false 0 10 = some 5 ∧
    submit_jobs
        (fun i => if i < 3 then AggState.running else AggState.terminated)
        [⟨"j1", 0, .terminated⟩, ⟨"j2", 0, .terminated⟩,
         ⟨"j3", 0, .terminated⟩, ⟨"j4", 0, .terminated⟩,
         ⟨"j5", 1, .terminated⟩] 10 =
      some (failure_report
        [⟨"j1", 0, .terminated⟩, ⟨"j2", 0, .terminated⟩,
         ⟨"j3", 0, .terminated⟩, ⟨"j4", 0, .terminated⟩,
         ⟨"j5", 1, .terminated⟩],
        [⟨"j1", 0, .terminated⟩, ⟨"j2", 0, .terminated⟩,
         ⟨"j3", 0, .terminated⟩, ⟨"j4", 0, .terminated⟩,
         ⟨"j5", 1, .terminated⟩]) ∧
    ∀ j, j ∈ failure_report
        [⟨"j1", 0, .terminated⟩, ⟨"j2", 0, .terminated⟩,
         ⟨"j3", 0, .terminated⟩, ⟨"j4", 0, .terminated⟩,
         ⟨"j5", 1, .terminated⟩] ↔
      j ∈ [⟨"j1", 0, .terminated⟩, ⟨"j2", 0, .terminated⟩,
         ⟨"j3", 0, .terminated⟩, ⟨"j4", 0, .terminated⟩,
         ⟨"j5", 1, .terminated⟩] ∧
        (j.exitcode ≠ 0 ∨ j.state = AggState.stopped) :=
  submit_jobs_monitoring
    (fun i => if i < 3 then AggState.running else AggState.terminated)
    3 (by decide) (by decide) 10 (by omega)
    [⟨"j1", 0, .terminated⟩, ⟨"j2", 0, .terminated⟩,
     ⟨"j3", 0, .terminated⟩, ⟨"j4", 0, .terminated⟩,
     ⟨"j5", 1, .terminated⟩]

theorem drop_of_append {α : Type} {a b m : List α} (h : a ++ b = m) :
    m.drop a.length = b := by
  subst h; simp

theorem takeWhile_append_stop (S rest : List Char)
    (h : ∀ c ∈ S, c ≠ '/') (h2 : rest.head? = some '/') :
    (S ++ rest).takeWhile (fun c => c ≠ '/') = S := by
  induction S with
  | nil =>
      cases rest with
      | nil => simp at h2
      | cons r rs =>
          simp only [List.head?_cons, Option.some.injEq] at h2
          subst h2
          simp [List.takeWhile]
  | cons a t ih =>
      have ha : (decide (a ≠ '/')) = true := by
        simp [h a (by simp)]
      simp only [List.cons_append, List.takeWhile_cons, ha, if_true]
      rw [ih (fun c hc => h c (by simp [hc]))]

theorem regexObjectsSearch_iff (mid : List Char) (s : String)
    (hmid : mid.head? = some '/') :
    regexObjectsSearch mid s = true ↔
      ∃ A S B, s.data = A ++ "objects/".data ++ S ++ mid ++ B ∧
        S ≠ [] ∧ ∀ c ∈ S, c ≠ '/' := by
  have h8 : ("objects/".data).length = 8 := by decide
  unfold regexObjectsSearch
  rw [List.any_eq_true]
  constructor
  · rintro ⟨t, ht, hp⟩
    rw [List.mem_tails] at ht
    rcases ht with ⟨A, hA⟩
    rw [Bool.and_eq_true] at hp
    rcases hp with ⟨hpre, hseg⟩
    rcases List.isPrefixOf_iff_prefix.mp hpre with ⟨u, hu⟩
    have hdrop : t.drop 8 = u := by
      rw [← hu, ← h8]
      exact drop_of_append rfl
    unfold segThen at hseg
    rw [hdrop, Bool.and_eq_true] at hseg
    rcases hseg with ⟨hlen, hmidp⟩
    rw [decide_eq_true_iff] at hlen
    rcases List.isPrefixOf_iff_prefix.mp hmidp with ⟨B, hB⟩
    have hdw : u.drop (u.takeWhile (fun c => c ≠ '/')).length =
        u.dropWhile (fun c => c ≠ '/') :=
      drop_of_append (List.takeWhile_append_dropWhile (fun c => c ≠ '/') u)
    have hu2 : u = u.takeWhile (fun c => c ≠ '/') ++ (mid ++ B) := by
      rw [hB, hdw]
      exact (List.takeWhile_append_dropWhile (fun c => c ≠ '/') u).symm
    refine ⟨A, u.takeWhile (fun c => c ≠ '/'), B, ?_, ?_, ?_⟩
    · rw [← hA, ← hu]
      conv_lhs => rw [hu2]
      simp [List.append_assoc]
    · intro hnil
      rw [hnil] at hlen
      simp at hlen
    · intro c hc
      have := List.mem_takeWhile_imp hc
      simpa using this
  · rintro ⟨A, S, B, hs, hS, hfree⟩
    rcases mid with _ | ⟨c0, mid2⟩
    · simp at hmid
    · simp only [List.head?_cons, Option.some.injEq] at hmid
      subst hmid
      refine ⟨"objects/".data ++ S ++ '/' :: mid2 ++ B, ?_, ?_⟩
      · rw [List.mem_tails]
        exact ⟨A, by rw [hs]; simp [List.append_assoc]⟩
      · rw [Bool.and_eq_true]
        constructor
        · rw [List.isPrefixOf_iff_prefix]
          exact ⟨S ++ '/' :: mid2 ++ B, by simp [List.append_assoc]⟩
        · have hdrop : ("objects/".data ++ S ++ '/' :: mid2 ++ B).drop 8 =
              S ++ '/' :: mid2 ++ B := by
            rw [← h8]
            exact drop_of_append (by simp [List.append_assoc])
          unfold segThen
          rw [hdrop]
          have htw : (S ++ '/' :: mid2 ++ B).takeWhile (fun c => c ≠ '/') = S := by
            have := takeWhile_append_stop S ('/' :: mid2 ++ B) hfree (by simp)
            simpa [List.append_assoc] using this
          rw [Bool.and_eq_true, htw]
          constructor
          · rw [decide_eq_true_iff]
            cases S with
            | nil => exact absurd rfl hS
            | cons a t => simp
          · have : (S ++ '/' :: mid2 ++ B).drop S.length = '/' :: mid2 ++ B :=
              drop_of_append (by simp [List.append_assoc])
            rw [this, List.isPrefixOf_iff_prefix]
            exact ⟨B, by simp⟩

theorem deepMapData_sound (s : String) (h : deepMapData s = true) :
    ∃ A S B1 B2, s.data = A ++ "objects/".data ++ S ++ "/map_data/".data ++
        (B1 ++ '/' :: B2) ∧ S ≠ [] ∧ ∀ c ∈ S, c ≠ '/' := by
  have h8 : ("objects/".data).length = 8 := by decide
  have h10 : ("/map_data/".data).length = 10 := by decide
  unfold deepMapData at h
  rw [List.any_eq_true] at h
  rcases h with ⟨t, ht, hp⟩
  rw [List.mem_tails] at ht
  rcases ht with ⟨A, hA⟩
  rw [Bool.and_eq_true, Bool.and_eq_true] at hp
  rcases hp with ⟨⟨hpre, hseg⟩, hslash⟩
  rcases List.isPrefixOf_iff_prefix.mp hpre with ⟨u, hu⟩
  have hdrop : t.drop 8 = u := by
    rw [← hu, ← h8]
    exact drop_of_append rfl
  unfold segThen at hseg
  rw [hdrop, Bool.and_eq_true] at hseg
  rcases hseg with ⟨hlen, hmidp⟩
  rw [decide_eq_true_iff] at hlen
  rcases List.isPrefixOf_iff_prefix.mp hmidp with ⟨B, hB⟩
  have hdw : u.drop (u.takeWhile (fun c => c ≠ '/')).length = u.dropWhile (fun c => c ≠ '/') :=
    drop_of_append (List.takeWhile_append_dropWhile (fun c => c ≠ '/') u)
  have hu2 : u = u.takeWhile (fun c => c ≠ '/') ++ ("/map_data/".data ++ B) := by
    rw [hB, hdw]
    exact (List.takeWhile_append_dropWhile (fun c => c ≠ '/') u).symm
  have hteq : t.drop (8 + (u.takeWhile (fun c => c ≠ '/')).length + 10) = B := by
    have ht2 : t = ("objects/".data ++ (u.takeWhile (fun c => c ≠ '/') ++
        "/map_data/".data)) ++ B := by
      rw [hu2] at hu
      rw [← hu]
      simp [List.append_assoc]
    rw [ht2]
    have harr : 8 + (u.takeWhile (fun c => c ≠ '/')).length + 10 =
        ("objects/".data ++ (u.takeWhile (fun c => c ≠ '/') ++
          "/map_data/".data)).length := by
      simp only [List.length_append, h8, h10]
      omega
    rw [harr]
    exact drop_of_append rfl
  rw [hdrop, hteq] at hslash
  simp only [List.any_eq_true, decide_eq_true_iff] at hslash
  rcases hslash with ⟨c, hcB, hc⟩
  subst hc
  rcases List.append_of_mem hcB with ⟨B1, B2, hB12⟩
  refine ⟨A, u.takeWhile (fun c => c ≠ '/'), B1, B2, ?_, ?_, ?_⟩
  · rw [← hA, ← hu]
    conv_lhs => rw [hu2, hB12]
    simp [List.append_assoc]
  · intro hnil
    rw [hnil] at hlen
    simp at hlen
  · intro c hc
    simpa using List.mem_takeWhile_imp hc

theorem matchesMapData_of_deep_child (gp nm : String)
    (hnm : ∀ c ∈ nm.data, c ≠ '/')
    (h : deepMapData (gp ++ "/" ++ nm) = true) :
    matchesMapData gp = true := by
  rcases deepMapData_sound _ h with ⟨A, S, B1, B2, heq, hS, hfree⟩
  have hdata : (gp ++ "/" ++ nm).data = gp.data ++ '/' :: nm.data := by
    simp [String.data_append]
  rw [hdata] at heq
  have heq2 : gp.data ++ '/' :: nm.data =
      (A ++ "objects/".data ++ S ++ "/map_data/".data ++ B1) ++ '/' :: B2 := by
    rw [heq]
    simp [List.append_assoc]
  have hres : ∃ e, gp.data =
      (A ++ "objects/".data ++ S ++ "/map_data/".data ++ B1) ++ e := by
    rcases List.append_eq_append_iff.mp heq2 with ⟨e, he1, he2⟩ | ⟨e, he1, he2⟩
    · cases e with
      | nil =>
          exact ⟨[], by rw [he1]; simp⟩
      | cons c e2 =>
          simp only [List.cons_append, List.cons.injEq] at he2
          exact absurd (he2.2 ▸ (by simp : '/' ∈ e2 ++ '/' :: B2))
            (by intro hmem; exact hnm '/' hmem rfl)
    · exact ⟨e, he1⟩
  rcases hres with ⟨e, he⟩
  apply (regexObjectsSearch_iff "/map_data/".data gp (by decide)).mpr
  exact ⟨A, S, B1 ++ e, by rw [he]; simp [List.append_assoc], hS, hfree⟩

theorem writeGroupDatasets_mem (newHas : String → Bool) (g_path : String)
    (ds : List (String × List Int)) (acc : List (String × List Int))
    (q : String) (d : List Int)
    (h : (q, d) ∈ writeGroupDatasets newHas g_path ds acc) :
    (q, d) ∈ acc ∨ ∃ nm dat, (nm, dat) ∈ ds ∧ q = g_path ++ "/" ++ nm ∧
      matchesIds q = false ∧ newHas q = false := by
  induction ds generalizing acc with
  | nil => exact Or.inl h
  | cons x rest ih =>
      rw [writeGroupDatasets, List.foldl_cons] at h
      rcases ih _ (by rw [writeGroupDatasets]; exact h) with hmem | ⟨nm, dat, hnd, hq, hids, hnew⟩
      · by_cases hid : matchesIds (g_path ++ "/" ++ x.1)
        · rw [if_pos hid] at hmem
          exact Or.inl hmem
        · rw [if_neg hid] at hmem
          by_cases hex : newHas (g_path ++ "/" ++ x.1) ||
              acc.any (fun w => w.1 == g_path ++ "/" ++ x.1)
          · rw [if_pos hex] at hmem
            exact Or.inl hmem
          · rw [if_neg hex] at hmem
            rcases List.mem_append.mp hmem with hacc | hnewly
            · exact Or.inl hacc
            · rw [List.mem_singleton] at hnewly
              have hq2 : q = g_path ++ "/" ++ x.1 := congrArg Prod.fst hnewly
              refine Or.inr ⟨x.1, x.2, by simp, hq2, ?_, ?_⟩
              · rw [hq2]
                exact Bool.eq_false_iff.mpr (by simpa using hid)
              · rw [hq2]
                have hex2 : (newHas (g_path ++ "/" ++ x.1) ||
                    acc.any (fun w => w.1 == g_path ++ "/" ++ x.1)) = false :=
                  Bool.eq_false_iff.mpr (by simpa using hex)
                exact (Bool.or_eq_false_iff.mp hex2).1
      · exact Or.inr ⟨nm, dat, List.mem_cons_of_mem _ hnd, hq, hids, hnew⟩

theorem copy_recursive_mem (newHas : String → Bool) :
    ∀ (fuel : Nat) (p : String) (gs : List (String × H5Tree))
      (acc : List (String × List Int)),
      wfForest fuel gs = true →
      ∀ (q : String) (d : List Int),
      (q, d) ∈ copy_recursive newHas fuel p gs acc →
      (q, d) ∈ acc ∨
        ∃ gp nm, q = gp ++ "/" ++ nm ∧ (∀ c ∈ nm.data, c ≠ '/') ∧
          matchesMapData gp = false ∧ matchesIds q = false ∧
          newHas q = false := by
  intro fuel
  induction fuel with
  | zero =>
      intro p gs acc _ q d h
      exact Or.inl h
  | succ fuel ih =>
      intro p gs acc hwf q d h
      cases gs with
      | nil => exact Or.inl h
      | cons ght rest =>
          obtain ⟨g, t⟩ := ght
          cases t with
          | node ds gs2 =>
              rw [wfForest, Bool.and_eq_true, Bool.and_eq_true] at hwf
              rcases hwf with ⟨⟨hwfds, hwfg⟩, hwfr⟩
              by_cases hcond : matchesMapData (p ++ "/" ++ g)
              · rw [copy_recursive, if_pos hcond] at h
                exact ih p rest acc hwfr q d h
              · rw [copy_recursive, if_neg hcond] at h
                rcases ih p rest _ hwfr q d h with hin | hres
                · rcases ih (p ++ "/" ++ g) gs2 _ hwfg q d hin with hin2 | hres
                  · rcases writeGroupDatasets_mem newHas (p ++ "/" ++ g) ds acc
                        q d hin2 with hacc | ⟨nm, dat, hnd, hq, hids, hnew⟩
                    · exact Or.inl hacc
                    · refine Or.inr ⟨p ++ "/" ++ g, nm, hq, ?_, ?_, hids, hnew⟩
                      · intro c hc
                        rw [List.all_eq_true] at hwfds
                        have := hwfds (nm, dat) hnd
                        rw [List.all_eq_true] at this
                        simpa using this c hc
                      · exact Bool.eq_false_iff.mpr (by simpa using hcond)
                  · exact Or.inr hres
                · exact Or.inr hres

/-- C3 (amended): `update_datasets` copies a dataset only when its path
is absent from the target, and it never copies an object-identifier
dataset (path matching `objects/[^/]+/ids`) nor any dataset lying in a
*strict subgroup* of a `map_data` group (the path continues past
`map_data/` with a further slash).  Datasets sitting directly inside the
`map_data` group itself are not excluded: the source's skip pattern
`objects/[^/]+/map_data/` requires a slash after `map_data`, so only
subgroup recursion is cut off. -/
theorem update_datasets_exclusions (old : H5Tree) (newHas : String → Bool)
    (hwf : wfForest (forestSize old.subgroups) old.subgroups = true) :
    (∀ e ∈ update_datasets old newHas, newHas e.1 = false) ∧
    (∀ q, (deepMapData q = true ∨ matchesIds q = true) →
      newHas q = false → merge_exists old newHas q = false) := by
  constructor
  · rintro ⟨q, d⟩ he
    rcases copy_recursive_mem newHas (forestSize old.subgroups) "/"
        old.subgroups [] hwf q d he with h0 | ⟨_, _, _, _, _, _, hnew⟩
    · cases h0
    · exact hnew
  · intro q hexc habs
    unfold merge_exists
    rw [habs, Bool.false_or]
    apply Bool.eq_false_iff.mpr
    intro hany
    rw [List.any_eq_true] at hany
    rcases hany with ⟨w, hw, hwq⟩
    have hweq : w.1 = q := by simpa using hwq
    have hw2 : (w.1, w.2) ∈ update_datasets old newHas := by
      cases w
      exact hw
    rcases copy_recursive_mem newHas (forestSize old.subgroups) "/"
        old.subgroups [] hwf w.1 w.2 hw2 with h0 | ⟨gp, nm, hq, hfree, hmap, hids, _⟩
    · cases h0
    · rcases hexc with hdeep | hid
      · have : matchesMapData gp = true :=
          matchesMapData_of_deep_child gp nm hfree (by rw [← hq, hweq]; exact hdeep)
        rw [this] at hmap
        cases hmap
      · rw [hweq] at hids
        rw [hid] at hids
        cases hids

/-- Instance of the amended C3: on a concrete tree, a dataset buried in a
strict subgroup of `map_data` and absent from the target is still absent
after the merge. -/
theorem update_datasets_exclusions_witness :
    merge_exists
      (H5Tree.node []
        [("objects", H5Tree.node []
          [("cells", H5Tree.node [("ids", [1]), ("foo", [2])]
            [("map_data", H5Tree.node [("coords", [3])]
              [("sub", H5Tree.node [("inner", [4])] [])])])])])
      (fun _ => false) "//objects/cells/map_data/sub/inner" = false := by
  have hwf : wfForest
      (forestSize (H5Tree.node []
        [("objects", H5Tree.node []
          [("cells", H5Tree.node [("ids", [1]), ("foo", [2])]
            [("map_data", H5Tree.node [("coords", [3])]
              [("sub", H5Tree.node [("inner", [4])] [])])])])]).subgroups)
      (H5Tree.node []
        [("objects", H5Tree.node []
          [("cells", H5Tree.node [("ids", [1]), ("foo", [2])]
            [("map_data", H5Tree.node [("coords", [3])]
              [("sub", H5Tree.node [("inner", [4])] [])])])])]).subgroups = true := by
    have hfs : forestSize
        (H5Tree.node []
        [("objects", H5Tree.node []
          [("cells", H5Tree.node [("ids", [1]), ("foo", [2])]
            [("map_data", H5Tree.node [("coords", [3])]
              [("sub", H5Tree.node [("inner", [4])] [])])])])]).subgroups = 4 := by
      norm_num [forestSize, H5Tree.subgroups]
    rw [hfs]
    decide
  exact (update_datasets_exclusions
    (H5Tree.node []
        [("objects", H5Tree.node []
          [("cells", H5Tree.node [("ids", [1]), ("foo", [2])]
            [("map_data", H5Tree.node [("coords", [3])]
              [("sub", H5Tree.node [("inner", [4])] [])])])])])
    (fun _ => false) hwf).2
    "//objects/cells/map_data/sub/inner" (Or.inl (by decide)) rfl

/-- C3 counterexample: a dataset directly inside an object category's
`map_data` group — squarely inside the map-data subtree and matching the
source's own `objects/[^/]+/map_data/` pattern as a path — is absent from
the target before the merge yet present after it: the skip regex needs a
slash after `map_data`, so the `map_data` group's own datasets are
copied. -/
theorem update_datasets_map_data_counterexample :
    matchesMapData "//objects/cells/map_data/coords" = true ∧
    (fun _ => false : String → Bool) "//objects/cells/map_data/coords" = false ∧
    merge_exists
      (H5Tree.node []
        [("objects", H5Tree.node []
          [("cells", H5Tree.node [("ids", [1]), ("foo", [2])]
            [("map_data", H5Tree.node [("coords", [3])]
              [("sub", H5Tree.node [("inner", [4])] [])])])])])
      (fun _ => false) "//objects/cells/map_data/coords" = true := by
  refine ⟨by decide, rfl, ?_⟩
  have hfs : forestSize
      (H5Tree.node []
        [("objects", H5Tree.node []
          [("cells", H5Tree.node [("ids", [1]), ("foo", [2])]
            [("map_data", H5Tree.node [("coords", [3])]
              [("sub", H5Tree.node [("inner", [4])] [])])])])]).subgroups = 4 := by
    norm_num [forestSize, H5Tree.subgroups]
  unfold merge_exists update_datasets
  rw [hfs]
  decide

theorem sizeFragmentObjs_error (frag0 fr : Fragment) :
    ∀ (names : List String) (counts : List (String × Nat)),
      (∀ o ∈ names, (∃ n, sizeOfObjInFragment frag0 fr o = .ok n) ∨
        sizeOfObjInFragment frag0 fr o = .error .dataIncomplete) →
      (∃ o ∈ names, sizeOfObjInFragment frag0 fr o = .error .dataIncomplete) →
      sizeFragmentObjs frag0 fr names counts = .error .dataIncomplete := by
  intro names
  induction names with
  | nil =>
      intro counts _ hex
      rcases hex with ⟨o, ho, _⟩
      cases ho
  | cons o rest ih =>
      intro counts hall hex
      rcases hall o (by simp) with ⟨n, hn⟩ | hdi
      · rw [sizeFragmentObjs, hn]
        rcases hex with ⟨o2, ho2, hdi2⟩
        rcases List.mem_cons.mp ho2 with rfl | ho2r
        · rw [hn] at hdi2
          cases hdi2
        · exact ih _ (fun x hx => hall x (List.mem_cons_of_mem _ hx))
            ⟨o2, ho2r, hdi2⟩
      · rw [sizeFragmentObjs, hdi]

theorem sizeFragmentObjs_ok (frag0 fr : Fragment) :
    ∀ (names : List String) (counts : List (String × Nat)),
      (∀ o ∈ names, ∃ n, sizeOfObjInFragment frag0 fr o = .ok n) →
      ∃ c, sizeFragmentObjs frag0 fr names counts = .ok c := by
  intro names
  induction names with
  | nil => intro counts _; exact ⟨counts, rfl⟩
  | cons o rest ih =>
      intro counts hall
      rcases hall o (by simp) with ⟨n, hn⟩
      rw [sizeFragmentObjs, hn]
      exact ih _ (fun x hx => hall x (List.mem_cons_of_mem _ hx))

theorem sizingPhase_error (frag0 : Fragment) (names : List String) :
    ∀ (frs : List Fragment) (counts : List (String × Nat)),
      (∀ fr ∈ frs, ∀ o ∈ names,
        (∃ n, sizeOfObjInFragment frag0 fr o = .ok n) ∨
          sizeOfObjInFragment frag0 fr o = .error .dataIncomplete) →
      (∃ fr ∈ frs, ∃ o ∈ names,
        sizeOfObjInFragment frag0 fr o = .error .dataIncomplete) →
      sizingPhase frag0 names frs counts = .error .dataIncomplete := by
  intro frs
  induction frs with
  | nil =>
      intro counts _ hex
      rcases hex with ⟨fr, hfr, _⟩
      cases hfr
  | cons fr rest ih =>
      intro counts hall hex
      by_cases hfr : ∃ o ∈ names,
          sizeOfObjInFragment frag0 fr o = .error .dataIncomplete
      · rw [sizingPhase,
          sizeFragmentObjs_error frag0 fr names counts
            (hall fr (by simp)) hfr]
      · have hok : ∀ o ∈ names, ∃ n,
            sizeOfObjInFragment frag0 fr o = .ok n := by
          intro o ho
          rcases hall fr (by simp) o ho with h | h
          · exact h
          · exact absurd ⟨o, ho, h⟩ hfr
        rcases sizeFragmentObjs_ok frag0 fr names counts hok with ⟨c, hc⟩
        rw [sizingPhase, hc]
        rcases hex with ⟨fr2, hfr2, o2, ho2, hdi⟩
        rcases List.mem_cons.mp hfr2 with rfl | hfr2r
        · exact absurd ⟨o2, ho2, hdi⟩ hfr
        · exact ih _ (fun x hx => hall x (List.mem_cons_of_mem _ hx))
            ⟨fr2, hfr2r, o2, ho2, hdi⟩

/-- C8: in the sizing phase, for any fragment and object category the
row count is the row count (in that fragment) of the first discovered
features dataset when the category's features group exists there;
otherwise the row count of the segmentation `object_ids` dataset when
the segmentation group exists; and when neither group exists the sizing
fails with the incomplete-data `DataError`, which `combine_datasets`
propagates (given the other fragment/category pairs size cleanly). -/
theorem sizing_row_counts (frag0 fr : Fragment) (obj : String) :
    (featuresExists fr obj = false → segmentationExists fr obj = false →
      sizeOfObjInFragment frag0 fr obj = .error .dataIncomplete) ∧
    (featuresExists fr obj = true →
      ∀ nm og fl d, discFirstFeatureName frag0 obj = some nm →
        findObj fr obj = some og → og.features = some fl →
        findD fl nm = some d →
        sizeOfObjInFragment frag0 fr obj = .ok d.rows.length) ∧
    (featuresExists fr obj = false → segmentationExists fr obj = true →
      ∀ og sg d, findObj fr obj = some og → og.segmentation = some sg →
        findD sg.datasets "object_ids" = some d →
        sizeOfObjInFragment frag0 fr obj = .ok d.rows.length) ∧
    (∀ (frags : List Fragment), frags.head? = some frag0 → fr ∈ frags →
      (∀ fr2 ∈ frags, ∀ o2 ∈ frag0.objects.map (fun o => o.1),
        (∃ n, sizeOfObjInFragment frag0 fr2 o2 = .ok n) ∨
          sizeOfObjInFragment frag0 fr2 o2 = .error .dataIncomplete) →
      obj ∈ frag0.objects.map (fun o => o.1) →
      featuresExists fr obj = false → segmentationExists fr obj = false →
      combine_datasets frags = .error .dataIncomplete) := by
  have hA : featuresExists fr obj = false → segmentationExists fr obj = false →
      sizeOfObjInFragment frag0 fr obj = .error .dataIncomplete := by
    intro h1 h2
    unfold sizeOfObjInFragment
    rw [h1, h2]
    rfl
  refine ⟨hA, ?_, ?_, ?_⟩
  · intro h1 nm og fl d hnm hog hfl hd
    unfold sizeOfObjInFragment
    simp only [h1, hnm, hog, hfl, hd, if_true]
  · intro h1 h2 og sg d hog hsg hd
    unfold sizeOfObjInFragment
    simp only [h1, h2, hog, hsg, hd, if_true, Bool.false_eq_true, if_false]
  · intro frags hhead hmem hall hobj h1 h2
    cases frags with
    | nil => cases hhead
    | cons f0 rest =>
        simp only [List.head?_cons, Option.some.injEq] at hhead
        subst hhead
        simp only [combine_datasets]
        rw [sizingPhase_error f0 (f0.objects.map (fun o => o.1))
          (f0 :: rest) _ hall ⟨fr, hmem, obj, hobj, hA h1 h2⟩]

/-- Closed-form instance of C8: two fragments where the second lacks both
the features and the segmentation group of category `cells`; fusing
fails with the incomplete-data error. -/
theorem sizing_row_counts_witness :
    combine_datasets
      [⟨[("job", ⟨[], [7]⟩)], [("cells", ⟨some [("area", ⟨[], [1, 2]⟩)], none⟩)]⟩,
       ⟨[("job", ⟨[], [8]⟩)], [("cells", ⟨none, none⟩)]⟩] =
      .error .dataIncomplete := by
  refine (sizing_row_counts
    ⟨[("job", ⟨[], [7]⟩)], [("cells", ⟨some [("area", ⟨[], [1, 2]⟩)], none⟩)]⟩
    ⟨[("job", ⟨[], [8]⟩)], [("cells", ⟨none, none⟩)]⟩
    "cells").2.2.2
    _ rfl (by simp) ?_ (by simp) rfl rfl
  intro fr2 hfr2 o2 ho2
  simp only [List.mem_cons, List.not_mem_nil, or_false] at hfr2
  have ho2c : o2 = "cells" := by simpa using ho2
  subst ho2c
  rcases hfr2 with rfl | rfl
  · exact Or.inl ⟨2, rfl⟩
  · exact Or.inr rfl

theorem find?_of_nodup_mem {K A : Type} [BEq K] [LawfulBEq K]
    (l : List (K × A)) (p : K)
    (v : A) (hnd : (l.map (fun e => e.1)).Nodup) (hm : (p, v) ∈ l) :
    l.find? (fun e => e.1 == p) = some (p, v) := by
  induction l with
  | nil => cases hm
  | cons x rest ih =>
      simp only [List.map_cons, List.nodup_cons] at hnd
      rcases List.mem_cons.mp hm with rfl | hrest
      · rw [List.find?_cons_of_pos rest (by simp)]
      · have hx : x.1 ≠ p := by
          intro hxp
          exact hnd.1 (hxp ▸ (List.mem_map.mpr ⟨(p, v), hrest, rfl⟩))
        rw [List.find?_cons_of_neg rest (by simpa using hx)]
        exact ih hnd.2 hrest

theorem lookupFile_of_nodup_mem (l : FusedFile) (p : DPath) (v : List Int)
    (hnd : (l.map (fun e => e.1)).Nodup) (hm : (p, v) ∈ l) :
    lookupFile l p = some v := by
  unfold lookupFile
  rw [find?_of_nodup_mem l p v hnd hm]
  rfl

theorem lookupFile_outWrite_ne (f : FusedFile) (p q : DPath) (start : Nat)
    (data : List Int) (h : q ≠ p) :
    lookupFile (outWrite f p start data) q = lookupFile f q := by
  unfold lookupFile outWrite
  induction f with
  | nil => rfl
  | cons x rest ih =>
      simp only [List.map_cons]
      by_cases hx : (x.1 == p) = true
      · have hxp : x.1 = p := eq_of_beq hx
        have hq2 : (x.1 == q) = false := by
          simp only [beq_eq_false_iff_ne, ne_eq]
          intro hc
          exact h (by rw [← hc, hxp])
        rw [if_pos hx]
        simp only [List.find?_cons, hq2]
        exact ih
      · rw [if_neg (by simpa using hx)]
        by_cases hxq : (x.1 == q) = true
        · simp only [List.find?_cons, hxq]
        · simp only [List.find?_cons, hxq]
          exact ih

theorem lookupFile_outWrite_eq (f : FusedFile) (p : DPath) (start : Nat)
    (data : List Int) :
    lookupFile (outWrite f p start data) p =
      (lookupFile f p).map (fun arr => writeSlice arr start data) := by
  unfold lookupFile outWrite
  induction f with
  | nil => rfl
  | cons x rest ih =>
      simp only [List.map_cons]
      by_cases hx : (x.1 == p) = true
      · rw [if_pos hx]
        simp only [List.find?_cons, hx]
        rfl
      · rw [if_neg (by simpa using hx)]
        simp only [List.find?_cons, hx]
        exact ih

/-- The `data` variable after a dataset loop: unchanged over an empty
loop, else the last dataset's rows. -/
def lastData : List (DPath × Dataset) → Option (List Int) → Option (List Int)
  | [], last => last
  | (_, d) :: rest, _ => lastData rest (some d.rows)

theorem writeSeq_ok (entries : List (DPath × Dataset)) :
    ∀ (f : FusedFile) (start : Nat) (last : Option (List Int)),
      (∀ e ∈ entries, e.2.extraDims = []) →
      ∃ f2, writeSeq entries f start last = .ok (f2, lastData entries last) ∧
        (∀ p, p ∉ entries.map (fun e => e.1) →
          lookupFile f2 p = lookupFile f p) ∧
        ((entries.map (fun e => e.1)).Nodup →
          ∀ e ∈ entries, lookupFile f2 e.1 =
            (lookupFile f e.1).map (fun arr => writeSlice arr start e.2.rows)) := by
  induction entries with
  | nil =>
      intro f start last _
      exact ⟨f, rfl, fun _ _ => rfl, fun _ e he => absurd he (by simp)⟩
  | cons x rest ih =>
      intro f start last hdims
      obtain ⟨p, d⟩ := x
      have hd : d.extraDims = [] := hdims (p, d) (by simp)
      rcases ih (outWrite f p start d.rows) start (some d.rows)
          (fun e he => hdims e (List.mem_cons_of_mem _ he)) with
        ⟨f2, heq, huntouched, hwritten⟩
      refine ⟨f2, ?_, ?_, ?_⟩
      · rw [writeSeq, if_pos (by simp [hd])]
        exact heq
      · intro q hq
        simp only [List.map_cons, List.mem_cons, not_or] at hq
        rw [huntouched q hq.2, lookupFile_outWrite_ne f p q start d.rows hq.1]
      · intro hnd e he
        simp only [List.map_cons, List.nodup_cons] at hnd
        rcases List.mem_cons.mp he with rfl | hr
        · exact (huntouched (p, d).1 hnd.1).trans
            (lookupFile_outWrite_eq f p start d.rows)
        · rw [hwritten hnd.2 e hr]
          have hne : e.1 ≠ p := by
            intro hc
            exact hnd.1 (hc ▸ List.mem_map.mpr ⟨e, hr, rfl⟩)
          rw [lookupFile_outWrite_ne f p e.1 start d.rows hne]

theorem writeSlice_extend (a : List Int) (k : Nat) (data : List Int) :
    writeSlice (a ++ List.replicate k 0) a.length data =
      a ++ data ++ List.replicate (k - data.length) 0 := by
  unfold writeSlice
  rw [List.take_left a (List.replicate k 0), List.drop_append_eq_append_drop,
      List.drop_eq_nil_of_le (Nat.le_add_right a.length data.length),
      List.nil_append]
  have hidx : a.length + data.length - a.length = data.length := by omega
  rw [hidx, List.drop_replicate]

theorem find?_map_eq {A B : Type} (g : A → B) (n : String) :
    ∀ (l1 l2 : List (String × A)),
      l1.map (fun x => (x.1, g x.2)) = l2.map (fun x => (x.1, g x.2)) →
      (l1.find? (fun x => x.1 == n)).map (fun x => g x.2) =
        (l2.find? (fun x => x.1 == n)).map (fun x => g x.2) := by
  intro l1
  induction l1 with
  | nil =>
      intro l2 h
      cases l2 with
      | nil => rfl
      | cons y r2 => simp at h
  | cons x r ih =>
      intro l2 h
      cases l2 with
      | nil => simp at h
      | cons y r2 =>
          simp only [List.map_cons, List.cons.injEq, Prod.mk.injEq] at h
          obtain ⟨⟨h1, h2⟩, h3⟩ := h
          by_cases hx : (x.1 == n) = true
          · have hy : (y.1 == n) = true := by rw [← h1]; exact hx
            simp only [List.find?_cons, hx, hy]
            simp [h2]
          · have hx2 : (x.1 == n) = false := by simpa using hx
            have hy : (y.1 == n) = false := by rw [← h1]; exact hx2
            simp only [List.find?_cons, hx2, hy]
            exact ih r2 h3

theorem find?_key_map {A : Type} (h : String → A) (o : String) :
    ∀ (names : List String), o ∈ names →
      (names.map (fun x => (x, h x))).find? (fun c => c.1 == o) =
        some (o, h o) := by
  intro names
  induction names with
  | nil => intro hq; cases hq
  | cons x rest ih =>
      intro hq
      by_cases hx : x = o
      · subst hx
        rw [List.map_cons, List.find?_cons_of_pos _ (by simp)]
      · rw [List.map_cons, List.find?_cons_of_neg _ (by simpa using hx)]
        exact ih (by rcases List.mem_cons.mp hq with h1 | h1
                     · exact absurd h1.symm hx
                     · exact h1)

theorem lookupCount_key_map (h : String → Nat) (o : String)
    (names : List String) (hm : o ∈ names) :
    lookupCount (names.map (fun x => (x, h x))) o = h o := by
  unfold lookupCount
  rw [find?_key_map h o names hm]
  rfl

theorem getCursor_key_map (h : String → Nat) (o : String)
    (names : List String) (hm : o ∈ names) :
    getCursor (names.map (fun x => (x, h x))) o = h o := by
  unfold getCursor
  rw [find?_key_map h o names hm]
  rfl

theorem setCursor_key_map (h : String → Nat) (obj : String) (n : Nat)
    (names : List String) :
    setCursor (names.map (fun x => (x, h x))) obj n =
      names.map (fun x => (x, if x = obj then n else h x)) := by
  unfold setCursor
  rw [List.map_map]
  apply List.map_congr_left
  intro o _
  by_cases h2 : o = obj <;> simp [h2]

theorem addCount_map (names : List String) (g : String → Nat)
    (obj : String) (n : Nat) :
    addCount (names.map (fun o => (o, g o))) obj n =
      names.map (fun o => (o, if o = obj then g o + n else g o)) := by
  unfold addCount
  rw [List.map_map]
  apply List.map_congr_left
  intro o _
  by_cases h : o = obj <;> simp [h]

/-- The skeleton correspondence between a fragment and fragment 0 at one
object name. -/
theorem findObj_skel (fr frag0 : Fragment) (obj : String)
    (hsk : fragSkel fr = fragSkel frag0) :
    (findObj fr obj).map objSkel = (findObj frag0 obj).map objSkel := by
  unfold findObj
  have h2 := congrArg Prod.snd hsk
  simp only [fragSkel] at h2
  have := find?_map_eq objSkel obj fr.objects frag0.objects h2
  rw [Option.map_map, Option.map_map]
  exact this

/-- Sizing of one category in one well-formed fragment that shares
fragment 0's skeleton: the result is `objCount` of the fragment's own
object group. -/
theorem sizeOf_ok_of_uniform (frag0 fr : Fragment) (obj : String)
    (og : ObjGroup) (hobj : findObj fr obj = some og)
    (hsk : (findObj fr obj).map objSkel = (findObj frag0 obj).map objSkel)
    (hok : ObjOk og) :
    sizeOfObjInFragment frag0 fr obj = .ok (objCount og) := by
  rw [hobj] at hsk
  cases hsk0 : findObj frag0 obj with
  | none => rw [hsk0] at hsk; cases hsk
  | some og0 =>
      rw [hsk0] at hsk
      replace hsk : objSkel og = objSkel og0 := by
        simpa using hsk
      have hskf := congrArg Prod.fst hsk
      simp only [objSkel] at hskf
      cases hf : og.features with
      | some fl =>
          have hfe : featuresExists fr obj = true := by
            simp only [featuresExists, hobj, hf, Option.isSome_some]
          rcases hok with ⟨_, hne, _, hlen, _⟩
          cases fl with
          | nil => exact absurd rfl (hne [] hf)
          | cons d0 fl2 =>
              rw [hf] at hskf
              cases hf0 : og0.features with
              | none => rw [hf0] at hskf; cases hskf
              | some fl0 =>
                  rw [hf0] at hskf
                  replace hskf : dsNames (d0 :: fl2) = dsNames fl0 := by
                    simpa using hskf
                  cases fl0 with
                  | nil =>
                      simp only [dsNames, List.map_cons, List.map_nil] at hskf
                      cases hskf
                  | cons e0 fl02 =>
                      have hname : e0.1 = d0.1 := by
                        simp only [dsNames, List.map_cons,
                          List.cons.injEq] at hskf
                        exact hskf.1.symm
                      have hdisc : discFirstFeatureName frag0 obj =
                          some d0.1 := by
                        simp only [discFirstFeatureName, hsk0, hf0]
                        simp [hname]
                      have hfind : findD (d0 :: fl2) d0.1 = some d0.2 := by
                        unfold findD
                        rw [List.find?_cons_of_pos _ (by simp)]
                        rfl
                      have hcount : objCount og = d0.2.rows.length := by
                        simp only [objCount, hf]
                      simp only [sizeOfObjInFragment, hfe, if_true, hdisc,
                        hobj, hf, hfind, hcount]
      | none =>
          rcases hok with ⟨hsome, _, hids, _, _⟩
          have hfe : featuresExists fr obj = false := by
            simp only [featuresExists, hobj, hf, Option.isSome_none]
          rcases hsome with hcf | hcs
          · rw [hf] at hcf; cases hcf
          · cases hsg : og.segmentation with
            | none => rw [hsg] at hcs; cases hcs
            | some sg =>
                rcases hids hf sg hsg with ⟨d, hd⟩
                have hse : segmentationExists fr obj = true := by
                  simp only [segmentationExists, hobj, hsg, Option.isSome_some]
                have hcount : objCount og = d.rows.length := by
                  simp only [objCount, hf, hsg, hd]
                  rfl
                simp only [sizeOfObjInFragment, hfe, Bool.false_eq_true,
                  if_false, hse, if_true, hobj, hsg, hd, hcount]

theorem sizeFragmentObjs_uniform (frag0 fr : Fragment)
    (objNames : List String) :
    ∀ (names : List String), names.Nodup →
      (∀ o ∈ names, sizeOfObjInFragment frag0 fr o = .ok (objCountAt fr o)) →
      ∀ (g : String → Nat),
      sizeFragmentObjs frag0 fr names (objNames.map (fun o => (o, g o))) =
        .ok (objNames.map (fun o =>
          (o, if o ∈ names then g o + objCountAt fr o else g o))) := by
  intro names
  induction names with
  | nil =>
      intro _ _ g
      rw [sizeFragmentObjs]
      have heq : objNames.map (fun o => (o, g o)) =
          objNames.map (fun o =>
            (o, if o ∈ ([] : List String) then g o + objCountAt fr o
                else g o)) :=
        List.map_congr_left (fun o _ => by simp)
      rw [← heq]
  | cons obj rest ih =>
      intro hnd hsz g
      rw [List.nodup_cons] at hnd
      have h1 := hsz obj (by simp)
      simp only [sizeFragmentObjs, h1]
      rw [addCount_map,
        ih hnd.2 (fun o ho => hsz o (List.mem_cons_of_mem _ ho))
          (fun o => if o = obj then g o + objCountAt fr obj else g o)]
      congr 1
      apply List.map_congr_left
      intro o _
      by_cases hc1 : o = obj
      · subst hc1
        simp [hnd.1]
      · by_cases hc2 : o ∈ rest <;> simp [hc1, hc2]

theorem sizingPhase_uniform (frag0 : Fragment) (objNames : List String)
    (names : List String) (hnd : names.Nodup) :
    ∀ (frs : List Fragment),
      (∀ fr ∈ frs, ∀ o ∈ names,
        sizeOfObjInFragment frag0 fr o = .ok (objCountAt fr o)) →
      ∀ (g : String → Nat),
      sizingPhase frag0 names frs (objNames.map (fun o => (o, g o))) =
        .ok (objNames.map (fun o =>
          (o, if o ∈ names then
                g o + (frs.map (fun fr => objCountAt fr o)).sum
              else g o))) := by
  intro frs
  induction frs with
  | nil =>
      intro _ g
      rw [sizingPhase]
      congr 1
      apply List.map_congr_left
      intro o _
      by_cases h : o ∈ names <;> simp [h]
  | cons fr rest ih =>
      intro hsz g
      have hstep := sizeFragmentObjs_uniform frag0 fr objNames names hnd
        (hsz fr (by simp)) g
      simp only [sizingPhase, hstep]
      rw [ih (fun fr2 h2 o ho => hsz fr2 (List.mem_cons_of_mem _ h2) o ho)
        (fun o => if o ∈ names then g o + objCountAt fr o else g o)]
      congr 1
      apply List.map_congr_left
      intro o _
      by_cases h : o ∈ names <;> simp [h, Nat.add_assoc]

theorem nodup_flatMap_tag {α β T : Type} (f : α → List β) (tag : β → T)
    (key : α → T) :
    ∀ (l : List α), (l.map key).Nodup → (∀ a ∈ l, (f a).Nodup) →
      (∀ a ∈ l, ∀ b ∈ f a, tag b = key a) → (l.flatMap f).Nodup := by
  intro l
  induction l with
  | nil => intro _ _ _; simp
  | cons a rest ih =>
      intro hk hn ht
      rw [List.map_cons, List.nodup_cons] at hk
      rw [List.flatMap_cons]
      refine List.Nodup.append (hn a (by simp))
        (ih hk.2 (fun x hx => hn x (List.mem_cons_of_mem _ hx))
          (fun x hx b hb => ht x (List.mem_cons_of_mem _ hx) b hb)) ?_
      intro b hb hb2
      rcases List.mem_flatMap.mp hb2 with ⟨a2, ha2, hba2⟩
      have h1 : tag b = key a := ht a (by simp) b hb
      have h2 : tag b = key a2 := ht a2 (List.mem_cons_of_mem _ ha2) b hba2
      exact hk.1 (h1 ▸ h2 ▸ List.mem_map.mpr ⟨a2, ha2, rfl⟩)

theorem disjoint_of_tag {β T : Type} (tag : β → T) (l1 l2 : List β)
    (t1 t2 : T) (h1 : ∀ b ∈ l1, tag b = t1) (h2 : ∀ b ∈ l2, tag b = t2)
    (hne : t1 ≠ t2) : l1.Disjoint l2 := by
  intro b hb1 hb2
  exact hne ((h1 b hb1) ▸ (h2 b hb2) ▸ rfl)

theorem discSegPaths_comp (obj : String) (og : ObjGroup) :
    ∀ p ∈ discSegPaths obj og,
      p.getD 0 "" = "objects" ∧ p.getD 1 "" = obj ∧
      p.getD 2 "" = "segmentation" := by
  intro p hp
  unfold discSegPaths at hp
  cases hsg : og.segmentation with
  | none => rw [hsg] at hp; cases hp
  | some sg =>
      rw [hsg] at hp
      rcases List.mem_append.mp hp with h | h
      · rcases List.mem_map.mp h with ⟨d, _, rfl⟩
        exact ⟨rfl, rfl, rfl⟩
      · rcases List.mem_flatMap.mp h with ⟨g, _, hg⟩
        rcases List.mem_map.mp hg with ⟨d, _, rfl⟩
        exact ⟨rfl, rfl, rfl⟩

theorem discFeatPaths_comp (obj : String) (og : ObjGroup) :
    ∀ p ∈ discFeatPaths obj og,
      p.getD 0 "" = "objects" ∧ p.getD 1 "" = obj ∧
      p.getD 2 "" = "features" := by
  intro p hp
  rcases List.mem_map.mp hp with ⟨d, _, rfl⟩
  exact ⟨rfl, rfl, rfl⟩

theorem catPaths_nodup (obj : String) (og : ObjGroup)
    (hf : ∀ fl, og.features = some fl → (fl.map (fun d => d.1)).Nodup)
    (hs : ∀ sg, og.segmentation = some sg →
      (sg.datasets.map (fun d => d.1)).Nodup ∧
      (sg.subgroups.map (fun g => g.1)).Nodup ∧
      ∀ g ∈ sg.subgroups, (g.2.map (fun d => d.1)).Nodup) :
    (discSegPaths obj og ++ discFeatPaths obj og).Nodup := by
  have hseg : (discSegPaths obj og).Nodup := by
    unfold discSegPaths
    cases hsg : og.segmentation with
    | none => simp
    | some sg =>
        rcases hs sg hsg with ⟨hd, hg, hgd⟩
        refine List.Nodup.append ?_ ?_ ?_
        · rw [show sg.datasets.map (fun d => segPath obj d.1) =
              (sg.datasets.map (fun d => d.1)).map (segPath obj) by
            rw [List.map_map]; rfl]
          exact hd.map (fun a b hab => by
            simpa [segPath] using hab)
        · refine nodup_flatMap_tag _ (fun p => p.getD 3 "") (fun g => g.1)
            sg.subgroups hg ?_ ?_
          · intro g hgm
            rw [show g.2.map (fun d => segSubPath obj g.1 d.1) =
                (g.2.map (fun d => d.1)).map (segSubPath obj g.1) by
              rw [List.map_map]; rfl]
            exact (hgd g hgm).map (fun a b hab => by
              simpa [segSubPath] using hab)
          · intro g _ b hb
            rcases List.mem_map.mp hb with ⟨d, _, rfl⟩
            rfl
        · refine disjoint_of_tag (fun p => p.length) _ _ 4 5 ?_ ?_ (by omega)
          · intro b hb
            rcases List.mem_map.mp hb with ⟨d, _, rfl⟩
            rfl
          · intro b hb
            rcases List.mem_flatMap.mp hb with ⟨g, _, hg2⟩
            rcases List.mem_map.mp hg2 with ⟨d, _, rfl⟩
            rfl
  have hfeat : (discFeatPaths obj og).Nodup := by
    unfold discFeatPaths
    cases hfl : og.features with
    | none => simp
    | some fl =>
        rw [show (Option.getD (some fl) []).map (fun d => featPath obj d.1) =
            (fl.map (fun d => d.1)).map (featPath obj) by
          rw [List.map_map]; rfl]
        exact (hf fl hfl).map (fun a b hab => by
          simpa [featPath] using hab)
  refine List.Nodup.append hseg hfeat ?_
  refine disjoint_of_tag (fun p => p.getD 2 "") _ _ "segmentation" "features"
    ?_ ?_ (by decide)
  · exact fun b hb => (discSegPaths_comp obj og b hb).2.2
  · exact fun b hb => (discFeatPaths_comp obj og b hb).2.2

theorem discoveredPaths_nodup (frag0 : Fragment) (hnd : FragNodup frag0) :
    (discoveredPaths frag0).Nodup := by
  rcases hnd with ⟨hm, ho, hper⟩
  unfold discoveredPaths
  refine List.Nodup.append ?_ ?_ ?_
  · rw [show frag0.metadata.map (fun d => metaPath d.1) =
        (frag0.metadata.map (fun d => d.1)).map metaPath by
      rw [List.map_map]; rfl]
    exact hm.map (fun a b hab => by simpa [metaPath] using hab)
  · refine nodup_flatMap_tag _ (fun p => p.getD 1 "") (fun o => o.1)
      frag0.objects ho ?_ ?_
    · intro o hom
      exact catPaths_nodup o.1 o.2 (hper o hom).1 (hper o hom).2
    · intro o hom b hb
      rcases List.mem_append.mp hb with h | h
      · exact (discSegPaths_comp o.1 o.2 b h).2.1
      · exact (discFeatPaths_comp o.1 o.2 b h).2.1
  · refine disjoint_of_tag (fun p => p.getD 0 "") _ _ "" "objects"
      ?_ ?_ (by decide)
    · intro b hb
      rcases List.mem_map.mp hb with ⟨d, _, rfl⟩
      rfl
    · intro b hb
      rcases List.mem_flatMap.mp hb with ⟨o, hom, hbo⟩
      rcases List.mem_append.mp hbo with h | h
      · exact (discSegPaths_comp o.1 o.2 b h).1
      · exact (discFeatPaths_comp o.1 o.2 b h).1

theorem preallocate_paths (frag0 : Fragment) (nJobs : Nat)
    (counts : List (String × Nat)) :
    (preallocate frag0 nJobs counts).map (fun e => e.1) =
      discoveredPaths frag0 := by
  simp [preallocate, discoveredPaths, List.map_append, List.map_flatMap,
    List.map_map, Function.comp_def]

theorem fragDatasetAt_meta (fr : Fragment) (name : String) :
    fragDatasetAt fr (metaPath name) = findD fr.metadata name := rfl

theorem fragDatasetAt_feat (fr : Fragment) (obj name : String) :
    fragDatasetAt fr (featPath obj name) =
      (findObj fr obj).bind (fun og =>
        og.features.bind (fun fl => findD fl name)) := rfl

theorem fragDatasetAt_seg (fr : Fragment) (obj name : String) :
    fragDatasetAt fr (segPath obj name) =
      (findObj fr obj).bind (fun og =>
        og.segmentation.bind (fun sg => findD sg.datasets name)) := rfl

theorem fragDatasetAt_segSub (fr : Fragment) (obj g name : String) :
    fragDatasetAt fr (segSubPath obj g name) =
      (findObj fr obj).bind (fun og =>
        og.segmentation.bind (fun sg =>
          ((sg.subgroups.find? (fun x => x.1 == g)).map (fun x => x.2)).bind
            (fun ds => findD ds name))) := rfl

theorem mem_map_transfer {α β : Type} (f g : α → β) (l1 l2 : List α)
    (h : l1.map f = l2.map g) (a : α) (ha : a ∈ l1) :
    ∃ b ∈ l2, g b = f a := by
  have hm : f a ∈ l2.map g := h ▸ List.mem_map.mpr ⟨a, ha, rfl⟩
  rcases List.mem_map.mp hm with ⟨b, hb, hba⟩
  exact ⟨b, hb, hba⟩

theorem key_unique_of_nodup {K A : Type} [BEq K] [LawfulBEq K]
    (l : List (K × A)) (hnd : (l.map (fun e => e.1)).Nodup)
    (a b : K × A) (ha : a ∈ l) (hb : b ∈ l) (hk : a.1 = b.1) : a = b := by
  have h1 := find?_of_nodup_mem l a.1 a.2 hnd (Prod.mk.eta ▸ ha)
  have h2 := find?_of_nodup_mem l b.1 b.2 hnd (Prod.mk.eta ▸ hb)
  rw [hk, h2] at h1
  have := Option.some.inj h1
  rw [← Prod.mk.eta (p := a), ← Prod.mk.eta (p := b), hk, this]

theorem findObj_mem (fr : Fragment) (obj : String) (og : ObjGroup)
    (h : findObj fr obj = some og) : (obj, og) ∈ fr.objects := by
  unfold findObj at h
  cases hf : fr.objects.find? (fun o => o.1 == obj) with
  | none => rw [hf] at h; cases h
  | some e =>
      rw [hf] at h
      have he : e ∈ fr.objects := List.mem_of_find?_eq_some hf
      have h1 : e.1 = obj := eq_of_beq (by simpa using List.find?_some hf)
      have h2 : e.2 = og := by simpa using h
      obtain ⟨x, y⟩ := e
      simp only at h1 h2
      rw [← h1, ← h2]
      exact he

/-- A fragment sharing fragment 0's name skeleton inherits its sibling-name
uniqueness. -/
theorem fragNodup_of_skel (fr frag0 : Fragment)
    (hsk : fragSkel fr = fragSkel frag0) (hnd : FragNodup frag0) :
    FragNodup fr := by
  obtain ⟨hm0, ho0, hper0⟩ := hnd
  have h1 := congrArg Prod.fst hsk
  have h2 := congrArg Prod.snd hsk
  simp only [fragSkel] at h1 h2
  refine ⟨?_, ?_, ?_⟩
  · unfold dsNames at h1
    rw [h1]
    exact hm0
  · have hnames : fr.objects.map (fun o => o.1) =
        frag0.objects.map (fun o => o.1) := by
      have := congrArg (List.map Prod.fst) h2
      simpa [List.map_map, Function.comp_def] using this
    rw [hnames]
    exact ho0
  · intro o ho
    rcases mem_map_transfer _ _ fr.objects frag0.objects h2 o ho with
      ⟨o0, ho0m, hoeq⟩
    have hskobj : objSkel o0.2 = objSkel o.2 :=
      congrArg Prod.snd hoeq
    have hf0 := congrArg Prod.fst hskobj
    have hs0 := congrArg Prod.snd hskobj
    simp only [objSkel] at hf0 hs0
    rcases hper0 o0 ho0m with ⟨hfl0, hsg0⟩
    constructor
    · intro fl hfl
      rw [hfl] at hf0
      cases hc : o0.2.features with
      | none => rw [hc] at hf0; cases hf0
      | some fl0 =>
          rw [hc] at hf0
          have hds : dsNames fl0 = dsNames fl := by simpa using hf0
          have := hfl0 fl0 hc
          unfold dsNames at hds
          rw [← hds]
          exact this
    · intro sg hsg
      rw [hsg] at hs0
      cases hc : o0.2.segmentation with
      | none => rw [hc] at hs0; cases hs0
      | some sg0 =>
          rw [hc] at hs0
          have hpair := Option.some.inj hs0
          have hds : dsNames sg0.datasets = dsNames sg.datasets :=
            congrArg Prod.fst hpair
          have hsub : sg0.subgroups.map (fun g => (g.1, dsNames g.2)) =
              sg.subgroups.map (fun g => (g.1, dsNames g.2)) :=
            congrArg Prod.snd hpair
          rcases hsg0 sg0 hc with ⟨hd0, hg0, hgd0⟩
          refine ⟨?_, ?_, ?_⟩
          · unfold dsNames at hds
            rw [← hds]
            exact hd0
          · have hn : sg0.subgroups.map (fun g => g.1) =
                sg.subgroups.map (fun g => g.1) := by
              have := congrArg (List.map Prod.fst) hsub
              simpa [List.map_map, Function.comp_def] using this
            rw [← hn]
            exact hg0
          · intro g hg
            rcases mem_map_transfer _ _ sg.subgroups sg0.subgroups hsub.symm
                g hg with ⟨g0, hg0m, hgeq⟩
            have hgds : dsNames g0.2 = dsNames g.2 := congrArg Prod.snd hgeq
            unfold dsNames at hgds
            rw [← hgds]
            exact hgd0 g0 hg0m

theorem lastData_some (entries : List (DPath × Dataset)) :
    entries ≠ [] →
    ∀ last, ∃ e ∈ entries, lastData entries last = some e.2.rows := by
  induction entries with
  | nil => intro h; exact absurd rfl h
  | cons x rest ih =>
      intro _ last
      obtain ⟨p, d⟩ := x
      by_cases hr : rest = []
      · subst hr
        exact ⟨(p, d), by simp, rfl⟩
      · rcases ih hr (some d.rows) with ⟨e, he, heq⟩
        exact ⟨e, List.mem_cons_of_mem _ he, heq⟩

theorem flatMap_length_sum {α : Type} (l : List α) (f : α → List Int)
    (g : α → Nat) (h : ∀ a ∈ l, (f a).length = g a) :
    (l.flatMap f).length = (l.map g).sum := by
  induction l with
  | nil => rfl
  | cons x r ih =>
      rw [List.flatMap_cons, List.map_cons, List.length_append,
        h x (by simp), List.sum_cons,
        ih (fun a ha => h a (List.mem_cons_of_mem _ ha))]

theorem lookupFile_preallocate (frag0 : Fragment) (nJobs : Nat)
    (counts : List (String × Nat)) (hnd : FragNodup frag0) :
    (∀ d ∈ frag0.metadata,
      lookupFile (preallocate frag0 nJobs counts) (metaPath d.1) =
        some (List.replicate nJobs 0)) ∧
    (∀ o ∈ frag0.objects, ∀ p ∈ discSegPaths o.1 o.2 ++ discFeatPaths o.1 o.2,
      lookupFile (preallocate frag0 nJobs counts) p =
        some (List.replicate (lookupCount counts o.1) 0)) := by
  have hkeys : ((preallocate frag0 nJobs counts).map (fun e => e.1)).Nodup := by
    rw [preallocate_paths]
    exact discoveredPaths_nodup frag0 hnd
  constructor
  · intro d hd
    refine lookupFile_of_nodup_mem _ _ _ hkeys ?_
    unfold preallocate
    exact List.mem_append_left _ (List.mem_map.mpr ⟨d, hd, rfl⟩)
  · intro o ho p hp
    refine lookupFile_of_nodup_mem _ _ _ hkeys ?_
    unfold preallocate
    refine List.mem_append_right _ (List.mem_flatMap.mpr ⟨o, ho, ?_⟩)
    rcases List.mem_append.mp hp with h | h
    · exact List.mem_append_left _ (List.mem_map.mpr ⟨p, h, rfl⟩)
    · exact List.mem_append_right _ (List.mem_map.mpr ⟨p, h, rfl⟩)

/-- The metadata write entries of a uniform fragment: their paths are
fragment 0's discovered metadata paths, and each entry holds the
fragment's own one-row dataset at that path. -/
theorem metaEntries_spec (fr frag0 : Fragment)
    (hsk : fragSkel fr = fragSkel frag0) (hok : FragmentOk fr)
    (hndf : FragNodup fr) :
    (metaEntries fr).map (fun e => e.1) =
      frag0.metadata.map (fun d => metaPath d.1) ∧
    ∀ e ∈ metaEntries fr, fragDatasetAt fr e.1 = some e.2 ∧
      e.2.extraDims = [] ∧ e.2.rows.length = 1 := by
  constructor
  · have h1 := congrArg Prod.fst hsk
    simp only [fragSkel] at h1
    unfold dsNames at h1
    calc (metaEntries fr).map (fun e => e.1)
        = fr.metadata.map (fun d => metaPath d.1) := by
          simp [metaEntries, List.map_map, Function.comp_def]
      _ = (fr.metadata.map (fun d => d.1)).map metaPath := by
          rw [List.map_map]; rfl
      _ = (frag0.metadata.map (fun d => d.1)).map metaPath := by rw [h1]
      _ = frag0.metadata.map (fun d => metaPath d.1) := by
          rw [List.map_map]; rfl
  · intro e he
    rcases List.mem_map.mp he with ⟨d, hd, rfl⟩
    refine ⟨?_, (hok.1 d hd).1, (hok.1 d hd).2⟩
    rw [fragDatasetAt_meta]
    unfold findD
    rw [find?_of_nodup_mem fr.metadata d.1 d.2 hndf.1 (Prod.mk.eta ▸ hd)]
    rfl

/-- The per-category write entries of a uniform fragment: their paths
are exactly fragment 0's discovered paths for the category, each entry
holds the fragment's own one-dimensional dataset at its path with the
category's row count, and at least one entry exists. -/
theorem objEntries_spec (fr : Fragment) (obj : String) (og og0 : ObjGroup)
    (hfr : findObj fr obj = some og)
    (hsk : objSkel og = objSkel og0)
    (hok : ObjOk og)
    (hndf : ∀ fl, og.features = some fl → (fl.map (fun d => d.1)).Nodup)
    (hnds : ∀ sg, og.segmentation = some sg →
      (sg.datasets.map (fun d => d.1)).Nodup ∧
      (sg.subgroups.map (fun g => g.1)).Nodup ∧
      ∀ g ∈ sg.subgroups, (g.2.map (fun d => d.1)).Nodup) :
    (fragFeatEntries fr obj).map (fun e => e.1) = discFeatPaths obj og0 ∧
    (fragSegEntries fr obj).map (fun e => e.1) = discSegPaths obj og0 ∧
    (∀ e ∈ fragFeatEntries fr obj ++ fragSegEntries fr obj,
      fragDatasetAt fr e.1 = some e.2 ∧ e.2.extraDims = [] ∧
      e.2.rows.length = objCount og) ∧
    fragFeatEntries fr obj ++ fragSegEntries fr obj ≠ [] := by
  have hfc := congrArg Prod.fst hsk
  have hsc := congrArg Prod.snd hsk
  simp only [objSkel] at hfc hsc
  refine ⟨?_, ?_, ?_, ?_⟩
  · cases hf : og.features with
    | none =>
        cases hf0 : og0.features with
        | none => simp [fragFeatEntries, discFeatPaths, hfr, hf, hf0]
        | some fl0 => rw [hf, hf0] at hfc; cases hfc
    | some fl =>
        cases hf0 : og0.features with
        | none => rw [hf, hf0] at hfc; cases hfc
        | some fl0 =>
            rw [hf, hf0] at hfc
            have hds : fl.map (fun d => d.1) = fl0.map (fun d => d.1) := by
              simpa [dsNames] using hfc
            simp only [fragFeatEntries, discFeatPaths, hfr, hf, hf0,
              Option.getD_some]
            calc (fl.map (fun d => (featPath obj d.1, d.2))).map (fun e => e.1)
                = (fl.map (fun d => d.1)).map (featPath obj) := by
                  rw [List.map_map, List.map_map]; rfl
              _ = (fl0.map (fun d => d.1)).map (featPath obj) := by rw [hds]
              _ = fl0.map (fun d => featPath obj d.1) := by
                  rw [List.map_map]; rfl
  · cases hs : og.segmentation with
    | none =>
        cases hs0 : og0.segmentation with
        | none => simp [fragSegEntries, discSegPaths, hfr, hs, hs0]
        | some sg0 => rw [hs, hs0] at hsc; cases hsc
    | some sg =>
        cases hs0 : og0.segmentation with
        | none => rw [hs, hs0] at hsc; cases hsc
        | some sg0 =>
            rw [hs, hs0] at hsc
            have hpair : (dsNames sg.datasets,
                sg.subgroups.map (fun g => (g.1, dsNames g.2))) =
                (dsNames sg0.datasets,
                 sg0.subgroups.map (fun g => (g.1, dsNames g.2))) := by
              simpa using hsc
            have hds : sg.datasets.map (fun d => d.1) =
                sg0.datasets.map (fun d => d.1) := by
              simpa [dsNames] using congrArg Prod.fst hpair
            have hsub : sg.subgroups.map (fun g => (g.1, dsNames g.2)) =
                sg0.subgroups.map (fun g => (g.1, dsNames g.2)) :=
              congrArg Prod.snd hpair
            simp only [dsNames] at hsub
            have hinner : (fun (g : String × List (String × Dataset)) =>
                (g.2.map (fun d => (segSubPath obj g.1 d.1, d.2))).map
                  (fun e => e.1)) =
                (fun g => (g.2.map (fun d => d.1)).map (segSubPath obj g.1)) := by
              funext g
              rw [List.map_map, List.map_map]
              rfl
            have houter : ∀ (l : List (String × List (String × Dataset))),
                l.flatMap (fun g =>
                  (g.2.map (fun d => d.1)).map (segSubPath obj g.1)) =
                  (l.map (fun g => (g.1, g.2.map (fun d => d.1)))).flatMap
                    (fun q => q.2.map (segSubPath obj q.1)) := by
              intro l
              rw [List.flatMap_map]
            simp only [fragSegEntries, discSegPaths, hfr, hs, hs0]
            rw [List.map_append, List.map_flatMap]
            congr 1
            · calc (sg.datasets.map
                    (fun d => (segPath obj d.1, d.2))).map (fun e => e.1)
                  = (sg.datasets.map (fun d => d.1)).map (segPath obj) := by
                    rw [List.map_map, List.map_map]; rfl
                _ = (sg0.datasets.map (fun d => d.1)).map (segPath obj) := by
                    rw [hds]
                _ = sg0.datasets.map (fun d => segPath obj d.1) := by
                    rw [List.map_map]; rfl
            · have hinner2 : (fun (g : String × List (String × Dataset)) =>
                  (g.2.map (fun d => d.1)).map (segSubPath obj g.1)) =
                  (fun g => g.2.map (fun d => segSubPath obj g.1 d.1)) := by
                funext g
                rw [List.map_map]
                rfl
              rw [hinner, houter sg.subgroups, hsub, ← houter sg0.subgroups,
                hinner2]
  · intro e he
    rcases List.mem_append.mp he with hef | hes
    · cases hf : og.features with
      | none =>
          rw [show fragFeatEntries fr obj = [] by
            simp [fragFeatEntries, hfr, hf]] at hef
          cases hef
      | some fl =>
          rw [show fragFeatEntries fr obj =
              fl.map (fun d => (featPath obj d.1, d.2)) by
            simp [fragFeatEntries, hfr, hf]] at hef
          rcases List.mem_map.mp hef with ⟨d, hd, rfl⟩
          obtain ⟨hdim, hlen⟩ := hok.2.2.2.1 fl hf d hd
          refine ⟨?_, hdim, hlen⟩
          have hfind : findD fl d.1 = some d.2 := by
            unfold findD
            rw [find?_of_nodup_mem fl d.1 d.2 (hndf fl hf) (Prod.mk.eta ▸ hd)]
            rfl
          simp [fragDatasetAt_feat, hfr, hf, hfind]
    · cases hs : og.segmentation with
      | none =>
          rw [show fragSegEntries fr obj = [] by
            simp [fragSegEntries, hfr, hs]] at hes
          cases hes
      | some sg =>
          rw [show fragSegEntries fr obj =
              sg.datasets.map (fun d => (segPath obj d.1, d.2)) ++
                sg.subgroups.flatMap (fun g =>
                  g.2.map (fun d => (segSubPath obj g.1 d.1, d.2))) by
            simp [fragSegEntries, hfr, hs]] at hes
          rcases List.mem_append.mp hes with hds | hsub
          · rcases List.mem_map.mp hds with ⟨d, hd, rfl⟩
            obtain ⟨hdim, hlen⟩ := (hok.2.2.2.2 sg hs).1 d hd
            refine ⟨?_, hdim, hlen⟩
            have hfind : findD sg.datasets d.1 = some d.2 := by
              unfold findD
              rw [find?_of_nodup_mem sg.datasets d.1 d.2 (hnds sg hs).1
                (Prod.mk.eta ▸ hd)]
              rfl
            simp [fragDatasetAt_seg, hfr, hs, hfind]
          · rcases List.mem_flatMap.mp hsub with ⟨g, hg, hgd⟩
            rcases List.mem_map.mp hgd with ⟨d, hd, rfl⟩
            obtain ⟨hdim, hlen⟩ := (hok.2.2.2.2 sg hs).2 g hg d hd
            refine ⟨?_, hdim, hlen⟩
            have hgfind : sg.subgroups.find? (fun x => x.1 == g.1) =
                some (g.1, g.2) :=
              find?_of_nodup_mem sg.subgroups g.1 g.2 (hnds sg hs).2.1
                (Prod.mk.eta ▸ hg)
            have hfind : findD g.2 d.1 = some d.2 := by
              unfold findD
              rw [find?_of_nodup_mem g.2 d.1 d.2 ((hnds sg hs).2.2 g hg)
                (Prod.mk.eta ▸ hd)]
              rfl
            simp [fragDatasetAt_segSub, hfr, hs, hgfind, hfind]
  · cases hf : og.features with
    | some fl =>
        have hflne := hok.2.1 fl hf
        have hfe : fragFeatEntries fr obj =
            fl.map (fun d => (featPath obj d.1, d.2)) := by
          simp [fragFeatEntries, hfr, hf]
        intro hcon
        rcases List.append_eq_nil.mp hcon with ⟨h1, _⟩
        rw [hfe] at h1
        exact hflne (List.map_eq_nil_iff.mp h1)
    | none =>
        rcases hok.1 with hL | hR
        · rw [hf] at hL; simp at hL
        · cases hs : og.segmentation with
          | none => rw [hs] at hR; simp at hR
          | some sg =>
              rcases hok.2.2.1 hf sg hs with ⟨d0, hd0⟩
              have hdsne : sg.datasets ≠ [] := by
                intro hcon
                rw [hcon] at hd0
                simp [findD] at hd0
              have hseg : fragSegEntries fr obj =
                  sg.datasets.map (fun d => (segPath obj d.1, d.2)) ++
                    sg.subgroups.flatMap (fun g =>
                      g.2.map (fun d => (segSubPath obj g.1 d.1, d.2))) := by
                simp [fragSegEntries, hfr, hs]
              intro hcon
              rcases List.append_eq_nil.mp hcon with ⟨_, h2⟩
              rw [hseg] at h2
              rcases List.append_eq_nil.mp h2 with ⟨h3, _⟩
              exact hdsne (List.map_eq_nil_iff.mp h3)

/-- The per-category data a uniform fragment supplies for one of
fragment 0's object categories. -/
theorem objData_of_uniform (frag0 fr : Fragment)
    (hsk : fragSkel fr = fragSkel frag0) (hok : FragmentOk fr)
    (hnd0 : FragNodup frag0) (o : String × ObjGroup) (ho : o ∈ frag0.objects) :
    ∃ og, findObj fr o.1 = some og ∧ findObj frag0 o.1 = some o.2 ∧
      objSkel og = objSkel o.2 ∧ ObjOk og ∧ objCountAt fr o.1 = objCount og ∧
      (∀ fl, og.features = some fl → (fl.map (fun d => d.1)).Nodup) ∧
      (∀ sg, og.segmentation = some sg →
        (sg.datasets.map (fun d => d.1)).Nodup ∧
        (sg.subgroups.map (fun g => g.1)).Nodup ∧
        ∀ g ∈ sg.subgroups, (g.2.map (fun d => d.1)).Nodup) ∧
      (discSegPaths o.1 o.2 ++ discFeatPaths o.1 o.2).Nodup := by
  have hfind0 : findObj frag0 o.1 = some o.2 := by
    unfold findObj
    rw [find?_of_nodup_mem frag0.objects o.1 o.2 hnd0.2.1 (Prod.mk.eta ▸ ho)]
    rfl
  have hmapsk := findObj_skel fr frag0 o.1 hsk
  rw [hfind0] at hmapsk
  cases hfind : findObj fr o.1 with
  | none => rw [hfind] at hmapsk; cases hmapsk
  | some og =>
      rw [hfind] at hmapsk
      have hskog : objSkel og = objSkel o.2 := by simpa using hmapsk
      have hmem := findObj_mem fr o.1 og hfind
      have hogok : ObjOk og := hok.2 (o.1, og) hmem
      have hcount : objCountAt fr o.1 = objCount og := by
        unfold objCountAt
        rw [hfind]
        rfl
      have hndfr := fragNodup_of_skel fr frag0 hsk hnd0
      have hgrp := hndfr.2.2 (o.1, og) hmem
      have hcat := catPaths_nodup o.1 o.2 (hnd0.2.2 o ho).1 (hnd0.2.2 o ho).2
      exact ⟨og, rfl, hfind0, hskog, hogok, hcount, hgrp.1, hgrp.2, hcat⟩

/-- Copying one object category from a uniform fragment succeeds, leaves
the `data` variable holding rows of the category's count, rewrites each
of the category's discovered paths once at the cursor with the
fragment's own rows, and touches no other path. -/
theorem copyObj_uniform (fr : Fragment) (obj : String) (og og0 : ObjGroup)
    (hfr : findObj fr obj = some og) (hsk : objSkel og = objSkel og0)
    (hok : ObjOk og)
    (hndf : ∀ fl, og.features = some fl → (fl.map (fun d => d.1)).Nodup)
    (hnds : ∀ sg, og.segmentation = some sg →
      (sg.datasets.map (fun d => d.1)).Nodup ∧
      (sg.subgroups.map (fun g => g.1)).Nodup ∧
      ∀ g ∈ sg.subgroups, (g.2.map (fun d => d.1)).Nodup)
    (hndp : (discSegPaths obj og0 ++ discFeatPaths obj og0).Nodup)
    (f : FusedFile) (cursor : Nat) (last : Option (List Int)) :
    ∃ f2 dat, copyObj fr obj f cursor last = .ok (f2, some dat) ∧
      dat.length = objCount og ∧
      (∀ p, p ∉ discSegPaths obj og0 ++ discFeatPaths obj og0 →
        lookupFile f2 p = lookupFile f p) ∧
      (∀ p ∈ discSegPaths obj og0 ++ discFeatPaths obj og0,
        lookupFile f2 p =
          (lookupFile f p).map
            (fun arr => writeSlice arr cursor (fragRowsAt fr p)) ∧
        (fragRowsAt fr p).length = objCount og) := by
  obtain ⟨hkF, hkS, hmem, hne⟩ :=
    objEntries_spec fr obj og og0 hfr hsk hok hndf hnds
  have hSnd : (discSegPaths obj og0).Nodup := hndp.of_append_left
  have hFnd : (discFeatPaths obj og0).Nodup := hndp.of_append_right
  have hdisj : (discSegPaths obj og0).Disjoint (discFeatPaths obj og0) :=
    List.disjoint_of_nodup_append hndp
  have hdimsF : ∀ e ∈ fragFeatEntries fr obj, e.2.extraDims = [] :=
    fun e he => (hmem e (List.mem_append_left _ he)).2.1
  have hdimsS : ∀ e ∈ fragSegEntries fr obj, e.2.extraDims = [] :=
    fun e he => (hmem e (List.mem_append_right _ he)).2.1
  rcases writeSeq_ok (fragFeatEntries fr obj) f cursor last hdimsF with
    ⟨f1, heq1, hunt1, hwr1⟩
  rcases writeSeq_ok (fragSegEntries fr obj) f1 cursor
      (lastData (fragFeatEntries fr obj) last) hdimsS with
    ⟨f2, heq2, hunt2, hwr2⟩
  have hcopy : copyObj fr obj f cursor last =
      .ok (f2, lastData (fragSegEntries fr obj)
        (lastData (fragFeatEntries fr obj) last)) := by
    simp only [copyObj, heq1, heq2]
  have hdat : ∃ dat, lastData (fragSegEntries fr obj)
      (lastData (fragFeatEntries fr obj) last) = some dat ∧
      dat.length = objCount og := by
    by_cases hS : fragSegEntries fr obj = []
    · have hF : fragFeatEntries fr obj ≠ [] := by
        intro hcon
        exact hne (by rw [hcon, hS, List.append_nil])
      rcases lastData_some _ hF last with ⟨e, heF, heqF⟩
      refine ⟨e.2.rows, ?_, (hmem e (List.mem_append_left _ heF)).2.2⟩
      rw [hS]
      exact heqF
    · rcases lastData_some _ hS (lastData (fragFeatEntries fr obj) last) with
        ⟨e, heS, heqS⟩
      exact ⟨e.2.rows, heqS, (hmem e (List.mem_append_right _ heS)).2.2⟩
  rcases hdat with ⟨dat, hdat1, hdat2⟩
  refine ⟨f2, dat, by rw [hcopy, hdat1], hdat2, ?_, ?_⟩
  · intro p hp
    have hp1 : p ∉ (fragFeatEntries fr obj).map (fun e => e.1) := by
      rw [hkF]
      exact fun hc => hp (List.mem_append_right _ hc)
    have hp2 : p ∉ (fragSegEntries fr obj).map (fun e => e.1) := by
      rw [hkS]
      exact fun hc => hp (List.mem_append_left _ hc)
    rw [hunt2 p hp2, hunt1 p hp1]
  · intro p hp
    rcases List.mem_append.mp hp with hpS | hpF
    · have hpF2 : p ∉ (fragFeatEntries fr obj).map (fun e => e.1) := by
        rw [hkF]
        exact fun hc => hdisj hpS hc
      have hpk : p ∈ (fragSegEntries fr obj).map (fun e => e.1) := by
        rw [hkS]
        exact hpS
      rcases List.mem_map.mp hpk with ⟨e, heS, rfl⟩
      have hrows : fragRowsAt fr e.1 = e.2.rows := by
        unfold fragRowsAt
        rw [(hmem e (List.mem_append_right _ heS)).1]
        rfl
      constructor
      · rw [hwr2 (by rw [hkS]; exact hSnd) e heS, hunt1 e.1 hpF2, hrows]
      · rw [hrows]
        exact (hmem e (List.mem_append_right _ heS)).2.2
    · have hpk : p ∈ (fragFeatEntries fr obj).map (fun e => e.1) := by
        rw [hkF]
        exact hpF
      rcases List.mem_map.mp hpk with ⟨e, heF, rfl⟩
      have hpS2 : e.1 ∉ (fragSegEntries fr obj).map (fun q => q.1) := by
        rw [hkS]
        exact fun hc => hdisj hc hpF
      have hrows : fragRowsAt fr e.1 = e.2.rows := by
        unfold fragRowsAt
        rw [(hmem e (List.mem_append_left _ heF)).1]
        rfl
      constructor
      · rw [hunt2 e.1 hpS2, hwr1 (by rw [hkF]; exact hFnd) e heF, hrows]
      · rw [hrows]
        exact (hmem e (List.mem_append_left _ heF)).2.2

theorem catPaths_comp1 (o : String × ObjGroup) (p : DPath)
    (hp : p ∈ discSegPaths o.1 o.2 ++ discFeatPaths o.1 o.2) :
    p.getD 1 "" = o.1 := by
  rcases List.mem_append.mp hp with h | h
  · exact (discSegPaths_comp o.1 o.2 p h).2.1
  · exact (discFeatPaths_comp o.1 o.2 p h).2.1

theorem catPaths_comp0 (o : String × ObjGroup) (p : DPath)
    (hp : p ∈ discSegPaths o.1 o.2 ++ discFeatPaths o.1 o.2) :
    p.getD 0 "" = "objects" := by
  rcases List.mem_append.mp hp with h | h
  · exact (discSegPaths_comp o.1 o.2 p h).1
  · exact (discFeatPaths_comp o.1 o.2 p h).1

/-- The object loop of the copy phase for one uniform fragment, over any
duplicate-free sublist of the discovered category names, with the cursor
table given as a function of the name. -/
theorem copyObjs_uniform (frag0 fr : Fragment)
    (hsk : fragSkel fr = fragSkel frag0) (hok : FragmentOk fr)
    (hnd0 : FragNodup frag0) :
    ∀ (names : List String), names.Nodup →
      (∀ n ∈ names, n ∈ frag0.objects.map (fun o => o.1)) →
      ∀ (f : FusedFile) (c : String → Nat) (last : Option (List Int)),
      ∃ f2 l2, copyObjs fr names f
          ((frag0.objects.map (fun o => o.1)).map (fun o => (o, c o))) last =
        .ok (f2, (frag0.objects.map (fun o => o.1)).map
          (fun o => (o, if o ∈ names then c o + objCountAt fr o else c o)),
          l2) ∧
        (∀ p, (∀ o ∈ frag0.objects, o.1 ∈ names →
            p ∉ discSegPaths o.1 o.2 ++ discFeatPaths o.1 o.2) →
          lookupFile f2 p = lookupFile f p) ∧
        (∀ o ∈ frag0.objects, o.1 ∈ names →
          ∀ p ∈ discSegPaths o.1 o.2 ++ discFeatPaths o.1 o.2,
            lookupFile f2 p =
              (lookupFile f p).map
                (fun arr => writeSlice arr (c o.1) (fragRowsAt fr p)) ∧
            (fragRowsAt fr p).length = objCountAt fr o.1) := by
  intro names
  induction names with
  | nil =>
      intro _ _ f c last
      refine ⟨f, last, ?_, fun p _ => rfl, fun o _ ho => absurd ho (by simp)⟩
      have hmap : (frag0.objects.map (fun o => o.1)).map
          (fun o => (o, if o ∈ ([] : List String) then c o + objCountAt fr o
            else c o)) =
          (frag0.objects.map (fun o => o.1)).map (fun o => (o, c o)) :=
        List.map_congr_left (fun o _ => by simp)
      rw [copyObjs, hmap]
  | cons obj rest ih =>
      intro hnd hsubset f c last
      rw [List.nodup_cons] at hnd
      have hobjN : obj ∈ frag0.objects.map (fun o => o.1) :=
        hsubset obj (by simp)
      rcases List.mem_map.mp hobjN with ⟨o0, ho0, ho0eq⟩
      subst ho0eq
      rcases objData_of_uniform frag0 fr hsk hok hnd0 o0 ho0 with
        ⟨og, hfind, hfind0, hskog, hogok, hcount, hgf, hgs, hcat⟩
      have hcur : getCursor ((frag0.objects.map (fun o => o.1)).map
          (fun o => (o, c o))) o0.1 = c o0.1 :=
        getCursor_key_map c o0.1 _ hobjN
      rcases copyObj_uniform fr o0.1 og o0.2 hfind hskog hogok hgf hgs hcat
          f (c o0.1) last with ⟨f1, dat, hcobj, hdatlen, hunt, hwr⟩
      have hdl : dat.length = objCountAt fr o0.1 := by
        rw [hdatlen, ← hcount]
      have hstep : copyObjs fr (o0.1 :: rest) f
          ((frag0.objects.map (fun o => o.1)).map (fun o => (o, c o))) last =
          copyObjs fr rest f1
            (setCursor ((frag0.objects.map (fun o => o.1)).map
              (fun o => (o, c o))) o0.1 (c o0.1 + dat.length)) (some dat) := by
        simp only [copyObjs, hcur, hcobj]
      have hset : setCursor ((frag0.objects.map (fun o => o.1)).map
          (fun o => (o, c o))) o0.1 (c o0.1 + dat.length) =
          (frag0.objects.map (fun o => o.1)).map (fun x =>
            (x, if x = o0.1 then c x + objCountAt fr x else c x)) := by
        rw [hdl, setCursor_key_map]
        exact List.map_congr_left
          (fun x _ => by by_cases hx : x = o0.1 <;> simp [hx])
      rcases ih hnd.2 (fun n hn => hsubset n (List.mem_cons_of_mem _ hn)) f1
          (fun x => if x = o0.1 then c x + objCountAt fr x else c x)
          (some dat) with ⟨f2, l2, heq2, hunt2, hwr2⟩
      have hfix : (frag0.objects.map (fun o => o.1)).map (fun o =>
          (o, if o ∈ rest then
              (if o = o0.1 then c o + objCountAt fr o else c o) +
                objCountAt fr o
            else if o = o0.1 then c o + objCountAt fr o else c o)) =
          (frag0.objects.map (fun o => o.1)).map (fun o =>
            (o, if o ∈ o0.1 :: rest then c o + objCountAt fr o else c o)) := by
        apply List.map_congr_left
        intro x _
        by_cases hx : x = o0.1
        · subst hx
          simp [hnd.1]
        · by_cases hxr : x ∈ rest <;> simp [hx, hxr]
      refine ⟨f2, l2, ?_, ?_, ?_⟩
      · rw [hstep, hset, heq2, hfix]
      · intro p hp
        have h1 : lookupFile f2 p = lookupFile f1 p :=
          hunt2 p (fun o ho hor => hp o ho (List.mem_cons_of_mem _ hor))
        have h2 : lookupFile f1 p = lookupFile f p :=
          hunt p (hp o0 ho0 (by simp))
        rw [h1, h2]
      · intro o ho hmemcons p hpcat
        rcases List.mem_cons.mp hmemcons with hcase | hcase
        · have hoeq : o = o0 :=
            key_unique_of_nodup frag0.objects hnd0.2.1 o o0 ho ho0 hcase
          subst hoeq
          have hwhere := hwr p hpcat
          have hrest : lookupFile f2 p = lookupFile f1 p := by
            apply hunt2 p
            intro o2 ho2 ho2r hpc2
            have hc1 : p.getD 1 "" = o.1 := catPaths_comp1 o p hpcat
            have hc2 : p.getD 1 "" = o2.1 := catPaths_comp1 o2 p hpc2
            have hcc : o2.1 = o.1 := by rw [← hc2, hc1]
            exact hnd.1 (hcc ▸ ho2r)
          constructor
          · rw [hrest, hwhere.1]
          · rw [hwhere.2]
            exact hcount.symm
        · have hne1 : o.1 ≠ o0.1 := fun hcc => hnd.1 (hcc ▸ hcase)
          have hp1 : p ∉ discSegPaths o0.1 o0.2 ++ discFeatPaths o0.1 o0.2 := by
            intro hpc0
            have hc1 : p.getD 1 "" = o.1 := catPaths_comp1 o p hpcat
            have hc0 : p.getD 1 "" = o0.1 := catPaths_comp1 o0 p hpc0
            exact hne1 (by rw [← hc1, hc0])
          have hfirst : lookupFile f1 p = lookupFile f p := hunt p hp1
          have hrest := hwr2 o ho hcase p hpcat
          constructor
          · rw [hrest.1, hfirst]
            simp [hne1]
          · exact hrest.2

/-- Copying one uniform fragment: it succeeds, the metadata datasets are
written once at the job index, every discovered category path is written
once at its category cursor, the job index advances by one and every
category cursor advances by the fragment's row count for the category. -/
theorem copyFragment_uniform (frag0 fr : Fragment)
    (hsk : fragSkel fr = fragSkel frag0) (hok : FragmentOk fr)
    (hnd0 : FragNodup frag0) (f : FusedFile) (j : Nat) (c : String → Nat)
    (last : Option (List Int)) :
    ∃ f1 l1, copyFragment (frag0.objects.map (fun o => o.1)) fr f j
        ((frag0.objects.map (fun o => o.1)).map (fun o => (o, c o))) last =
      .ok (f1, j + 1,
        (frag0.objects.map (fun o => o.1)).map
          (fun o => (o, c o + objCountAt fr o)), l1) ∧
      (∀ d ∈ frag0.metadata,
        lookupFile f1 (metaPath d.1) =
          (lookupFile f (metaPath d.1)).map
            (fun arr => writeSlice arr j (fragRowsAt fr (metaPath d.1))) ∧
        (fragRowsAt fr (metaPath d.1)).length = 1) ∧
      (∀ o ∈ frag0.objects, ∀ p ∈ discSegPaths o.1 o.2 ++ discFeatPaths o.1 o.2,
        lookupFile f1 p =
          (lookupFile f p).map
            (fun arr => writeSlice arr (c o.1) (fragRowsAt fr p)) ∧
        (fragRowsAt fr p).length = objCountAt fr o.1) := by
  have hndfr := fragNodup_of_skel fr frag0 hsk hnd0
  obtain ⟨hmk, hmrows⟩ := metaEntries_spec fr frag0 hsk hok hndfr
  have hmknd : ((metaEntries fr).map (fun e => e.1)).Nodup := by
    rw [hmk, show frag0.metadata.map (fun d => metaPath d.1) =
        (frag0.metadata.map (fun d => d.1)).map metaPath by
      rw [List.map_map]; rfl]
    exact hnd0.1.map (fun a b hab => by simpa [metaPath] using hab)
  have hdims : ∀ e ∈ metaEntries fr, e.2.extraDims = [] :=
    fun e he => (hmrows e he).2.1
  rcases writeSeq_ok (metaEntries fr) f j last hdims with
    ⟨fm, heqm, huntm, hwrm⟩
  rcases copyObjs_uniform frag0 fr hsk hok hnd0
      (frag0.objects.map (fun o => o.1)) hnd0.2.1 (fun n hn => hn) fm c
      (lastData (metaEntries fr) last) with ⟨f1, l1, heqo, hunto, hwro⟩
  have hrun : copyFragment (frag0.objects.map (fun o => o.1)) fr f j
      ((frag0.objects.map (fun o => o.1)).map (fun o => (o, c o))) last =
      .ok (f1, j + 1, (frag0.objects.map (fun o => o.1)).map
        (fun o => (o, if o ∈ frag0.objects.map (fun o2 => o2.1) then
          c o + objCountAt fr o else c o)), l1) := by
    simp only [copyFragment, heqm, heqo]
  have hcursfix : (frag0.objects.map (fun o => o.1)).map
      (fun o => (o, if o ∈ frag0.objects.map (fun o2 => o2.1) then
        c o + objCountAt fr o else c o)) =
      (frag0.objects.map (fun o => o.1)).map
        (fun o => (o, c o + objCountAt fr o)) :=
    List.map_congr_left (fun x hx => by simp [hx])
  refine ⟨f1, l1, by rw [hrun, hcursfix], ?_, ?_⟩
  · intro d hd
    have huntcat : lookupFile f1 (metaPath d.1) =
        lookupFile fm (metaPath d.1) := by
      apply hunto
      intro o ho _ hpc
      have h0 := catPaths_comp0 o (metaPath d.1) hpc
      simp [metaPath] at h0
    have hpk : metaPath d.1 ∈ (metaEntries fr).map (fun e => e.1) := by
      rw [hmk]
      exact List.mem_map.mpr ⟨d, hd, rfl⟩
    rcases List.mem_map.mp hpk with ⟨e, heM, hpe⟩
    have hrows : fragRowsAt fr e.1 = e.2.rows := by
      unfold fragRowsAt
      rw [(hmrows e heM).1]
      rfl
    constructor
    · rw [huntcat, ← hpe, hwrm hmknd e heM, hrows]
    · rw [← hpe, hrows]
      exact (hmrows e heM).2.2
  · intro o ho p hpc
    have hpnm : p ∉ (metaEntries fr).map (fun e => e.1) := by
      rw [hmk]
      intro hc
      rcases List.mem_map.mp hc with ⟨d, _, hdp⟩
      have h0 := catPaths_comp0 o p hpc
      rw [← hdp] at h0
      simp [metaPath] at h0
    have huntm2 : lookupFile fm p = lookupFile f p := huntm p hpnm
    have hwr := hwro o ho (List.mem_map.mpr ⟨o, ho, rfl⟩) p hpc
    exact ⟨by rw [hwr.1, huntm2], hwr.2⟩

/-- The copy phase over the remaining fragments: starting from a file
whose discovered paths hold the processed prefix's concatenated rows
followed by zero padding, it ends with every discovered path holding the
concatenation of all fragments' rows in input order. -/
theorem copyAll_uniform (frag0 : Fragment) (frags : List Fragment)
    (hnd0 : FragNodup frag0)
    (hall : ∀ fr ∈ frags, fragSkel fr = fragSkel frag0 ∧ FragmentOk fr) :
    ∀ (rest pre : List Fragment), frags = pre ++ rest →
    ∀ (f : FusedFile) (last : Option (List Int)),
    (∀ d ∈ frag0.metadata,
      lookupFile f (metaPath d.1) =
        some (pre.flatMap (fun fr => fragRowsAt fr (metaPath d.1)) ++
          List.replicate (frags.length - pre.length) 0) ∧
      (pre.flatMap (fun fr => fragRowsAt fr (metaPath d.1))).length =
        pre.length) →
    (∀ o ∈ frag0.objects, ∀ p ∈ discSegPaths o.1 o.2 ++ discFeatPaths o.1 o.2,
      lookupFile f p =
        some (pre.flatMap (fun fr => fragRowsAt fr p) ++
          List.replicate ((frags.map (fun fr => objCountAt fr o.1)).sum -
            (pre.map (fun fr => objCountAt fr o.1)).sum) 0) ∧
      (pre.flatMap (fun fr => fragRowsAt fr p)).length =
        (pre.map (fun fr => objCountAt fr o.1)).sum) →
    ∃ f2 cs2 l2,
      copyAll (frag0.objects.map (fun o => o.1)) rest f pre.length
        ((frag0.objects.map (fun o => o.1)).map
          (fun o => (o, (pre.map (fun fr => objCountAt fr o)).sum))) last =
        .ok (f2, frags.length, cs2, l2) ∧
      (∀ d ∈ frag0.metadata,
        lookupFile f2 (metaPath d.1) =
          some (frags.flatMap (fun fr => fragRowsAt fr (metaPath d.1)))) ∧
      (∀ o ∈ frag0.objects,
        ∀ p ∈ discSegPaths o.1 o.2 ++ discFeatPaths o.1 o.2,
          lookupFile f2 p =
            some (frags.flatMap (fun fr => fragRowsAt fr p))) := by
  intro rest
  induction rest with
  | nil =>
      intro pre hpre f last hmeta hcat
      have hpe : pre = frags := by rw [hpre, List.append_nil]
      subst hpe
      refine ⟨f, _, last, by rw [copyAll], ?_, ?_⟩
      · intro d hd
        have hv := (hmeta d hd).1
        simpa using hv
      · intro o ho p hp
        have hv := (hcat o ho p hp).1
        simpa using hv
  | cons fr rest2 ih =>
      intro pre hpre f last hmeta hcat
      have hfrmem : fr ∈ frags := by
        rw [hpre]
        exact List.mem_append_right _ (by simp)
      obtain ⟨hskfr, hokfr⟩ := hall fr hfrmem
      rcases copyFragment_uniform frag0 fr hskfr hokfr hnd0 f pre.length
          (fun o => (pre.map (fun fr2 => objCountAt fr2 o)).sum) last with
        ⟨f1, l1, hfrag, hfmeta, hfcat⟩
      have hstep : copyAll (frag0.objects.map (fun o => o.1)) (fr :: rest2) f
          pre.length ((frag0.objects.map (fun o => o.1)).map
            (fun o => (o, (pre.map (fun fr2 => objCountAt fr2 o)).sum))) last =
          copyAll (frag0.objects.map (fun o => o.1)) rest2 f1 (pre.length + 1)
            ((frag0.objects.map (fun o => o.1)).map
              (fun o => (o, (pre.map (fun fr2 => objCountAt fr2 o)).sum +
                objCountAt fr o))) l1 := by
        simp only [copyAll, hfrag]
      have hlen2 : (pre ++ [fr]).length = pre.length + 1 := by simp
      have hcurs2 : (frag0.objects.map (fun o => o.1)).map
          (fun o => (o, ((pre ++ [fr]).map (fun fr2 => objCountAt fr2 o)).sum)) =
          (frag0.objects.map (fun o => o.1)).map
            (fun o => (o, (pre.map (fun fr2 => objCountAt fr2 o)).sum +
              objCountAt fr o)) :=
        List.map_congr_left (fun x _ => by simp)
      have hmeta2 : ∀ d ∈ frag0.metadata,
          lookupFile f1 (metaPath d.1) =
            some ((pre ++ [fr]).flatMap
                (fun fr2 => fragRowsAt fr2 (metaPath d.1)) ++
              List.replicate (frags.length - (pre ++ [fr]).length) 0) ∧
          ((pre ++ [fr]).flatMap
              (fun fr2 => fragRowsAt fr2 (metaPath d.1))).length =
            (pre ++ [fr]).length := by
        intro d hd
        obtain ⟨hw, hl1⟩ := hfmeta d hd
        obtain ⟨hv, hlen⟩ := hmeta d hd
        have hflat : (pre ++ [fr]).flatMap
            (fun fr2 => fragRowsAt fr2 (metaPath d.1)) =
            pre.flatMap (fun fr2 => fragRowsAt fr2 (metaPath d.1)) ++
              fragRowsAt fr (metaPath d.1) := by
          rw [List.flatMap_append]
          simp
        have hws := writeSlice_extend
          (pre.flatMap (fun fr2 => fragRowsAt fr2 (metaPath d.1)))
          (frags.length - pre.length) (fragRowsAt fr (metaPath d.1))
        rw [hlen] at hws
        constructor
        · rw [hw, hv]
          simp only [Option.map_some']
          rw [hws, hflat, hl1, hlen2, Nat.sub_sub]
        · rw [hflat, List.length_append, hlen, hl1, hlen2]
      have hcat2 : ∀ o ∈ frag0.objects,
          ∀ p ∈ discSegPaths o.1 o.2 ++ discFeatPaths o.1 o.2,
          lookupFile f1 p =
            some ((pre ++ [fr]).flatMap (fun fr2 => fragRowsAt fr2 p) ++
              List.replicate ((frags.map (fun fr2 => objCountAt fr2 o.1)).sum -
                ((pre ++ [fr]).map (fun fr2 => objCountAt fr2 o.1)).sum) 0) ∧
          ((pre ++ [fr]).flatMap (fun fr2 => fragRowsAt fr2 p)).length =
            ((pre ++ [fr]).map (fun fr2 => objCountAt fr2 o.1)).sum := by
        intro o ho p hp
        obtain ⟨hw, hl1⟩ := hfcat o ho p hp
        obtain ⟨hv, hlen⟩ := hcat o ho p hp
        have hflat : (pre ++ [fr]).flatMap (fun fr2 => fragRowsAt fr2 p) =
            pre.flatMap (fun fr2 => fragRowsAt fr2 p) ++ fragRowsAt fr p := by
          rw [List.flatMap_append]
          simp
        have hsum : ((pre ++ [fr]).map (fun fr2 => objCountAt fr2 o.1)).sum =
            (pre.map (fun fr2 => objCountAt fr2 o.1)).sum +
              objCountAt fr o.1 := by
          simp
        have hws := writeSlice_extend
          (pre.flatMap (fun fr2 => fragRowsAt fr2 p))
          ((frags.map (fun fr2 => objCountAt fr2 o.1)).sum -
            (pre.map (fun fr2 => objCountAt fr2 o.1)).sum) (fragRowsAt fr p)
        rw [hlen] at hws
        constructor
        · rw [hw, hv]
          simp only [Option.map_some']
          rw [hws, hflat, hl1, hsum, Nat.sub_sub]
        · rw [hflat, List.length_append, hlen, hl1, hsum]
      rcases ih (pre ++ [fr]) (by rw [hpre, List.append_assoc]; rfl) f1 l1
          hmeta2 hcat2 with ⟨f2, cs2, l2, hrec, hm, hc⟩
      rw [hlen2, hcurs2] at hrec
      exact ⟨f2, cs2, l2, by rw [hstep]; exact hrec, hm, hc⟩

/-- C1: over uniform well-formed fragment files (sibling names unique,
every fragment sharing fragment 0's dataset taxonomy, every copied
dataset one-dimensional, every object category with features or
segmentation data in every fragment), `combine_datasets` succeeds and
every discovered dataset of the fused output holds the concatenation of
the fragments' rows in input order.  Consequently the per-category rows
of the fragment at position i occupy the slice starting at the sum of
the earlier fragments' row counts with that fragment's row count as its
length, and the metadata series has one row per fragment, the fragment
at position i contributing the row at index i, giving an N-row series. -/
theorem combine_datasets_concat (frags : List Fragment) (frag0 : Fragment)
    (hu : Uniform frags frag0) :
    ∃ out, combine_datasets frags = .ok out ∧
      (∀ p ∈ discoveredPaths frag0,
        lookupFile out p = some (frags.flatMap (fun fr => fragRowsAt fr p))) ∧
      (∀ d ∈ frag0.metadata, ∀ pre fr post, frags = pre ++ fr :: post →
        ((frags.flatMap (fun fr2 => fragRowsAt fr2 (metaPath d.1))).drop
            pre.length).take 1 = fragRowsAt fr (metaPath d.1) ∧
        (frags.flatMap (fun fr2 => fragRowsAt fr2 (metaPath d.1))).length =
          frags.length) ∧
      (∀ o ∈ frag0.objects, ∀ p ∈ discSegPaths o.1 o.2 ++ discFeatPaths o.1 o.2,
        ∀ pre fr post, frags = pre ++ fr :: post →
          ((frags.flatMap (fun fr2 => fragRowsAt fr2 p)).drop
              ((pre.map (fun fr2 => objCountAt fr2 o.1)).sum)).take
            (objCountAt fr o.1) = fragRowsAt fr p) := by
  obtain ⟨hhead, hnd0, hall⟩ := hu
  cases frags with
  | nil => simp at hhead
  | cons g tail =>
      have hg : g = frag0 := by simpa using hhead
      subst hg
      have hsz : ∀ fr ∈ g :: tail, ∀ o2 ∈ g.objects.map (fun o => o.1),
          sizeOfObjInFragment g fr o2 = .ok (objCountAt fr o2) := by
        intro fr hfr o2 ho2
        rcases List.mem_map.mp ho2 with ⟨o, ho, rfl⟩
        rcases objData_of_uniform g fr (hall fr hfr).1 (hall fr hfr).2 hnd0
            o ho with ⟨og, hfind, _, _, hogok, hcount, _, _, _⟩
        have hmapsk := findObj_skel fr g o.1 (hall fr hfr).1
        rw [sizeOf_ok_of_uniform g fr o.1 og hfind hmapsk hogok, hcount]
      have hsizing := sizingPhase_uniform g (g.objects.map (fun o => o.1))
        (g.objects.map (fun o => o.1)) hnd0.2.1 (g :: tail) hsz (fun _ => 0)
      have hcounts : (g.objects.map (fun o => o.1)).map (fun o =>
          (o, if o ∈ g.objects.map (fun o2 => o2.1) then
            0 + ((g :: tail).map (fun fr => objCountAt fr o)).sum else 0)) =
          (g.objects.map (fun o => o.1)).map (fun o =>
            (o, ((g :: tail).map (fun fr => objCountAt fr o)).sum)) :=
        List.map_congr_left (fun x hx => by simp [hx])
      rw [hcounts] at hsizing
      obtain ⟨hpm, hpc⟩ := lookupFile_preallocate g (g :: tail).length
        ((g.objects.map (fun o => o.1)).map (fun o =>
          (o, ((g :: tail).map (fun fr => objCountAt fr o)).sum))) hnd0
      rcases copyAll_uniform g (g :: tail) hnd0 hall (g :: tail) [] rfl
          (preallocate g (g :: tail).length
            ((g.objects.map (fun o => o.1)).map (fun o =>
              (o, ((g :: tail).map (fun fr => objCountAt fr o)).sum))))
          none
          (by intro d hd
              refine ⟨?_, rfl⟩
              rw [hpm d hd]
              simp)
          (by intro o ho p hp
              refine ⟨?_, rfl⟩
              rw [hpc o ho p hp]
              have hlc : lookupCount ((g.objects.map (fun o2 => o2.1)).map
                  (fun o2 =>
                    (o2, ((g :: tail).map (fun fr => objCountAt fr o2)).sum)))
                  o.1 =
                  ((g :: tail).map (fun fr => objCountAt fr o.1)).sum :=
                lookupCount_key_map _ o.1 _ (List.mem_map.mpr ⟨o, ho, rfl⟩)
              rw [hlc]
              simp) with ⟨f2, cs2, l2, hrec, hm, hc⟩
      simp only [List.length_nil, List.map_nil, List.sum_nil] at hrec
      have hcomb : combine_datasets (g :: tail) = .ok f2 := by
        simp only [combine_datasets, hsizing, hrec]
      refine ⟨f2, hcomb, ?_, ?_, ?_⟩
      · intro p hp
        unfold discoveredPaths at hp
        rcases List.mem_append.mp hp with h | h
        · rcases List.mem_map.mp h with ⟨d, hd, rfl⟩
          exact hm d hd
        · rcases List.mem_flatMap.mp h with ⟨o, ho, hpo⟩
          exact hc o ho p hpo
      · intro d hd pre fr post hsplit
        have hlens : ∀ fr2 ∈ g :: tail,
            (fragRowsAt fr2 (metaPath d.1)).length = 1 := by
          intro fr2 hfr2
          rcases copyFragment_uniform g fr2 (hall fr2 hfr2).1
              (hall fr2 hfr2).2 hnd0 [] 0 (fun _ => 0) none with
            ⟨_, _, _, hfm, _⟩
          exact (hfm d hd).2
        constructor
        · have hplen : (pre.flatMap
              (fun fr2 => fragRowsAt fr2 (metaPath d.1))).length =
              pre.length := by
            rw [flatMap_length_sum pre _ (fun _ => 1)
              (fun a ha => hlens a
                (by rw [hsplit]; exact List.mem_append_left _ ha))]
            simp
          have hfr1 : (fragRowsAt fr (metaPath d.1)).length = 1 :=
            hlens fr (by rw [hsplit]; exact List.mem_append_right _ (by simp))
          rw [hsplit, List.flatMap_append, List.flatMap_cons, ← hplen,
            List.drop_left, ← hfr1, List.take_left]
        · rw [flatMap_length_sum (g :: tail) _ (fun _ => 1) hlens]
          simp [Nat.add_comm]
      · intro o ho p hp pre fr post hsplit
        have hlens : ∀ fr2 ∈ g :: tail,
            (fragRowsAt fr2 p).length = objCountAt fr2 o.1 := by
          intro fr2 hfr2
          rcases copyFragment_uniform g fr2 (hall fr2 hfr2).1
              (hall fr2 hfr2).2 hnd0 [] 0 (fun _ => 0) none with
            ⟨_, _, _, _, hfc⟩
          exact (hfc o ho p hp).2
        have hplen : (pre.flatMap (fun fr2 => fragRowsAt fr2 p)).length =
            (pre.map (fun fr2 => objCountAt fr2 o.1)).sum :=
          flatMap_length_sum pre _ _
            (fun a ha => hlens a
              (by rw [hsplit]; exact List.mem_append_left _ ha))
        have hfrl : (fragRowsAt fr p).length = objCountAt fr o.1 :=
          hlens fr (by rw [hsplit]; exact List.mem_append_right _ (by simp))
        rw [hsplit, List.flatMap_append, List.flatMap_cons, ← hplen,
          List.drop_left, ← hfrl, List.take_left]

/-- A concrete fragment shaped like the spec's example: one metadata
scalar and one `cells` category with 10 rows of features and
segmentation data. -/
def fuseFrag (m a b c : Int) : Fragment :=
  { metadata := [("sites", ⟨[], [m]⟩)],
    objects := [("cells",
      { features := some [("area", ⟨[], List.replicate 10 a⟩)],
        segmentation := some
          { datasets := [("object_ids", ⟨[], List.replicate 10 b⟩)],
            subgroups := [("coords", [("y", ⟨[], List.replicate 10 c⟩)])] } })] }

def fuseFrags : List Fragment :=
  [fuseFrag 0 1 2 3, fuseFrag 10 11 12 13, fuseFrag 20 21 22 23]

theorem fuseFrag_uniform (m a b c : Int) :
    fragSkel (fuseFrag m a b c) = fragSkel (fuseFrag 0 1 2 3) ∧
    FragmentOk (fuseFrag m a b c) ∧ FragNodup (fuseFrag m a b c) := by
  refine ⟨rfl, ⟨?_, ?_⟩, ?_, ?_, ?_⟩
  · intro e he
    simp [fuseFrag] at he
    subst he
    exact ⟨rfl, rfl⟩
  · intro o ho
    simp [fuseFrag] at ho
    subst ho
    refine ⟨Or.inl rfl, ?_, ?_, ?_, ?_⟩
    · intro fl h
      rcases Option.some.inj h with rfl
      simp
    · intro h
      simp at h
    · intro fl h
      rcases Option.some.inj h with rfl
      intro e he
      simp at he
      subst he
      exact ⟨rfl, by simp [objCount]⟩
    · intro sg h
      rcases Option.some.inj h with rfl
      constructor
      · intro e he
        simp at he
        subst he
        exact ⟨rfl, by simp [objCount]⟩
      · intro g2 hg2
        simp at hg2
        subst hg2
        intro e he
        simp at he
        subst he
        exact ⟨rfl, by simp [objCount]⟩
  · simp [fuseFrag]
  · simp [fuseFrag]
  · intro o ho
    simp [fuseFrag] at ho
    subst ho
    constructor
    · intro fl h
      rcases Option.some.inj h with rfl
      simp
    · intro sg h
      rcases Option.some.inj h with rfl
      refine ⟨by simp, by simp, ?_⟩
      intro g2 hg2
      simp at hg2
      subst hg2
      simp

/-- Witness for `combine_datasets_concat` on the spec's example shape:
three fragments with one metadata scalar and 10 `cells` rows each. -/
theorem combine_datasets_concat_witness :
    ∃ out, combine_datasets fuseFrags = .ok out ∧
      (∀ p ∈ discoveredPaths (fuseFrag 0 1 2 3),
        lookupFile out p =
          some (fuseFrags.flatMap (fun fr => fragRowsAt fr p))) ∧
      (∀ d ∈ (fuseFrag 0 1 2 3).metadata, ∀ pre fr post,
        fuseFrags = pre ++ fr :: post →
        ((fuseFrags.flatMap (fun fr2 => fragRowsAt fr2 (metaPath d.1))).drop
            pre.length).take 1 = fragRowsAt fr (metaPath d.1) ∧
        (fuseFrags.flatMap (fun fr2 => fragRowsAt fr2 (metaPath d.1))).length =
          fuseFrags.length) ∧
      (∀ o ∈ (fuseFrag 0 1 2 3).objects,
        ∀ p ∈ discSegPaths o.1 o.2 ++ discFeatPaths o.1 o.2,
        ∀ pre fr post, fuseFrags = pre ++ fr :: post →
          ((fuseFrags.flatMap (fun fr2 => fragRowsAt fr2 p)).drop
              ((pre.map (fun fr2 => objCountAt fr2 o.1)).sum)).take
            (objCountAt fr o.1) = fragRowsAt fr p) :=
  combine_datasets_concat fuseFrags (fuseFrag 0 1 2 3)
    ⟨rfl, (fuseFrag_uniform 0 1 2 3).2.2, by
      intro fr hfr
      simp only [fuseFrags, List.mem_cons, List.not_mem_nil, or_false] at hfr
      rcases hfr with rfl | rfl | rfl
      · exact ⟨(fuseFrag_uniform 0 1 2 3).1, (fuseFrag_uniform 0 1 2 3).2.1⟩
      · exact ⟨(fuseFrag_uniform 10 11 12 13).1,
          (fuseFrag_uniform 10 11 12 13).2.1⟩
      · exact ⟨(fuseFrag_uniform 20 21 22 23).1,
          (fuseFrag_uniform 20 21 22 23).2.1⟩⟩

end TmLib
